import Mathlib

/-!
# dms3gx-go: rewrite mapping, rewrite lookup, links and version check

A shallow embedding of the mapping builder (`buildRewriteMapping`,
`addRewriteForDep`, `loadDep`), of the rewrite lookup closure inside `doRewrite`,
of `fullRewrite`, `versionComp` and the closure of `fixImports` from `main.go`, and of
`listLinkedPackages` from `link.go`.

Modelling conventions

* A Go `string` is a list of characters (`Str`).  The operations used by the
  source (`+`, `==`, `strings.HasPrefix`, `strings.Replace`, `strings.Split`,
  `strings.Join`, `strings.Contains`, `strconv.Atoi`) act on a string as a sequence,
  and on well-formed UTF-8 they agree with their character level counterparts.
* Go's `int` has 64 bits and `os.PathSeparator` is `/`.
* A Go run-time panic (a slice or an index out of range) is an outcome of its
  own in the result type of the function.
* A Go `map[string]string` is an association list with pairwise distinct keys
  (`GoMap`).  `m[k]` is `GoMap.get`, `m[k] = v` is `GoMap.set`.  The order of the
  list stands for the order in which a `for k, v := range m` loop happens to
  visit the entries; Go leaves that order unspecified, so every order is a
  possible behaviour of the program.
* The file system seen by `loadDep` is a pair of finite tables indexed by hash:
  what `FindPackageInDir` finds below `pkgdir/<hash>` and below
  `globalPath()/<hash>`.
-/

namespace Dms3gxGo

/-- Go strings, as sequences of characters. -/
abbrev Str := List Char

/-- Go `map[string]string`; the list order is the iteration order of `range`. -/
abbrev GoMap := List (Str × Str)

/-- The two-valued map read `v, ok := m[k]`. -/
def GoMap.get : GoMap → Str → Option Str
  | [], _ => none
  | (k', v') :: t, k => if k' = k then some v' else GoMap.get t k

/-- The map write `m[k] = v`: an existing key keeps its slot, a new key is added. -/
def GoMap.set : GoMap → Str → Str → GoMap
  | [], k, v => [(k, v)]
  | (k', v') :: t, k, v => if k' = k then (k, v) :: t else (k', v') :: GoMap.set t k v

/-- The keys of a map, in iteration order. -/
def GoMap.keys (m : GoMap) : List Str := m.map Prod.fst

/-- The fields of `dms3gx.Dependency` that the program reads. -/
structure Dependency where
  Name : Str
  Hash : Str
  deriving DecidableEq, Repr

/-- The struct `GoInfo`: extra information for go packages. -/
structure GoInfo where
  DvcsImport : Str
  GoVersion : Str
  deriving DecidableEq, Repr

/-- The struct `Package`: the fields of `dms3gx.PackageBase` that the program reads,
and the `Dms3Gx` block. -/
structure Package where
  Name : Str
  Dependencies : List Dependency
  Dms3Gx : GoInfo
  deriving DecidableEq, Repr

/-- The part of the file system that `loadDep` consults: the manifests found by
`FindPackageInDir` under `pkgdir/<hash>` and under `globalPath()/<hash>`. -/
structure Env where
  pkgdir : List (Str × Package)
  globalPath : List (Str × Package)

/-- The external `dms3gx.FindPackageInDir(&pkg, dir/<hash>)`: the first manifest the
table holds for the hash, or failure. -/
def FindPackageInDir : List (Str × Package) → Str → Option Package
  | [], _ => none
  | (h', p) :: t, h => if h' = h then some p else FindPackageInDir t h

/-- The function `loadDep`: the local vendoring directory first, then the global one. -/
def loadDep (env : Env) (dep : Dependency) : Option Package :=
  match FindPackageInDir env.pkgdir dep.Hash with
  | some cpkg => some cpkg
  | none =>
    match FindPackageInDir env.globalPath dep.Hash with
    | some cpkg => some cpkg
    | none => none

/-- The string constant `"dms3gx/dms3fs/"`. -/
def vendorImportRoot : Str := "dms3gx/dms3fs/".toList

/-- The function `addRewriteForDep`; the `VLog` diagnostic of the last branch has no
effect on the map. -/
def addRewriteForDep (dep : Dependency) (pkg : Package) (m : GoMap) (undo : Bool)
    (overwrite : Bool) : GoMap :=
  if pkg.Dms3Gx.DvcsImport = [] then m
  else
    let from0 := pkg.Dms3Gx.DvcsImport
    let to0 := vendorImportRoot ++ dep.Hash ++ ['/'] ++ pkg.Name
    let from_ := if undo then to0 else from0
    let to_ := if undo then from0 else to0
    let entryExists := (m.get from_).isSome
    if !entryExists || overwrite then m.set from_ to_
    else m

/-- The mutable state of one run of `buildRewriteMapping`: the `seen` set, the map
`m` (shared with the caller), and a ghost log of the hashes handed to `loadDep`. -/
structure BuildState where
  seen : List Str
  m : GoMap
  loaded : List Str
  deriving DecidableEq, Repr

/-- How a run of `process` ends: `nil` error, the error
`package %q not found. (dependency of %s)`, or recursion budget exhausted.  The
state is kept in the error case because the map is mutated in place. -/
inductive Outcome where
  | ok (s : BuildState)
  | err (depName : Str) (pkgName : Str) (s : BuildState)
  | outOfFuel
  deriving DecidableEq, Repr

/-- A `for _, dep := range deps` loop whose body may return early with an error. -/
def forDeps (body : Dependency → BuildState → Outcome) : List Dependency → BuildState → Outcome
  | [], s => .ok s
  | dep :: rest, s =>
    match body dep s with
    | .ok s' => forDeps body rest s'
    | o => o

/-- The closure `process` of `buildRewriteMapping`.  The first argument bounds the
depth of the recursion. -/
def process (env : Env) (undo : Bool) : Nat → Package → Bool → BuildState → Outcome
  | 0, _, _, _ => .outOfFuel
  | fuel + 1, pkg, rootPackage, s =>
    forDeps (fun dep s =>
      if dep.Hash ∈ s.seen then .ok s
      else
        let s1 : BuildState :=
          { s with seen := s.seen ++ [dep.Hash], loaded := s.loaded ++ [dep.Hash] }
        match loadDep env dep with
        | none => .err dep.Name pkg.Name s1
        | some cpkg =>
          let s2 : BuildState :=
            { s1 with m := addRewriteForDep dep cpkg s1.m undo rootPackage }
          process env undo fuel cpkg false s2) pkg.Dependencies s

/-- A recursion depth that no run can exceed: each nested call of `process` has
put one more resolvable hash into `seen`. -/
def depthBound (env : Env) : Nat := env.pkgdir.length + env.globalPath.length + 1

/-- The function `buildRewriteMapping`, started on the caller's map `m`. -/
def buildRewriteMapping (env : Env) (pkg : Package) (m : GoMap) (undo : Bool) : Outcome :=
  process env undo (depthBound env) pkg true { seen := [], m := m, loaded := [] }

/-- The call `strings.HasPrefix(s, pre)`. -/
def HasPrefix (s pre : Str) : Bool := pre.isPrefixOf s

/-- The scan of `strings.Replace` for the first occurrence of `old`, which is
replaced by `new`; without an occurrence the string is returned as it is.  An
empty `old` matches at the beginning of the string. -/
def replaceFirst (old new : Str) : Str → Str
  | [] => if old = [] then new else []
  | c :: t => if HasPrefix (c :: t) old then new ++ (c :: t).drop old.length
              else c :: replaceFirst old new t

/-- The call `strings.Replace(s, old, new, 1)`. -/
def Replace1 (s old new : Str) : Str :=
  if old = new then s else replaceFirst old new s

/-- The loop `for k, v := range mapping` of the lookup closure: the first entry, in
iteration order, with `strings.HasPrefix(in, k+"/")`. -/
def rangeFind (inp : Str) : GoMap → Option (Str × Str)
  | [] => none
  | (k, v) :: t => if HasPrefix inp (k ++ ['/']) then some (k, v) else rangeFind inp t

/-- The closure `rwm` of `doRewrite`: the replacement of one import identifier,
together with the mapping as the call leaves it. -/
def rwm (mapping : GoMap) (inp : Str) : Str × GoMap :=
  match mapping.get inp with
  | some m => (m, mapping)
  | none =>
    match rangeFind inp mapping with
    | some (k, v) =>
      let nmapping := Replace1 inp k v
      (nmapping, mapping.set inp nmapping)
    | none => (inp, mapping.set inp inp)

/-- A source file as the rewriter sees it: its name and its import identifiers. -/
structure SourceFile where
  name : Str
  imports : List Str
  deriving DecidableEq, Repr

/-- The files below a directory, in the order of the walk. -/
abbrev Tree := List SourceFile

/-- One file's imports put through a stateful rewrite function, in order. -/
def rewriteIdents (rwf : GoMap → Str → Str × GoMap) : List Str → GoMap → List Str × GoMap
  | [], m => ([], m)
  | i :: rest, m =>
    let r := rwf m i
    let rs := rewriteIdents rwf rest r.2
    (r.1 :: rs.1, rs.2)

/-- Modelled from the spec: `rw.RewriteImports` of the package `rewrite`, which is not
among the sources.  Its contract is "given a pure function identifier to identifier
and a directory, visit every qualifying file, apply the function to each
declared import identifier, and rewrite the file in place iff at least one
identifier actually changed".  The mapping is threaded through because the function handed
over by `doRewrite` writes to it. -/
def RewriteImports (rwf : GoMap → Str → Str × GoMap) (filter : Str → Bool) :
    Tree → GoMap → Tree × GoMap
  | [], m => ([], m)
  | f :: rest, m =>
    if filter f.name then
      let r := rewriteIdents rwf f.imports m
      let rs := RewriteImports rwf filter rest r.2
      ({ f with imports := r.1 } :: rs.1, rs.2)
    else
      let rs := RewriteImports rwf filter rest m
      (f :: rs.1, rs.2)

/-- The call `strings.HasSuffix(s, suf)`. -/
def HasSuffix (s suf : Str) : Bool := suf.isSuffixOf s

/-- The function `doRewrite`: every `.go` file below `cwd` is rewritten with `rwm`.
Input and output failures of the walk are not modelled, so the call always
returns `nil`; the result is the files and the mapping as the call leaves them. -/
def doRewrite (cwd : Tree) (mapping : GoMap) : Tree × GoMap :=
  RewriteImports rwm (fun s => HasSuffix s ".go".toList) cwd mapping

/-- What `fullRewrite` returns: `nil`, or the error
`build of rewrite mapping failed` wrapping the builder's error, or the failure of
`GetPackageRoot` or `LoadPackageFile`. -/
inductive RewriteError where
  | noPackage
  | buildFailed (depName : Str) (pkgName : Str)
  | buildDiverged
  deriving DecidableEq, Repr

/-- The function `fullRewrite`.  `rootManifest` is what `GetPackageRoot` followed by
`LoadPackageFile` delivers, `tree` the files below the package root; the result is
the returned error, if any, and the files as the call leaves them. -/
def fullRewrite (env : Env) (rootManifest : Option Package) (undo : Bool) (tree : Tree) :
    Option RewriteError × Tree :=
  match rootManifest with
  | none => (some .noPackage, tree)
  | some pkg =>
    match buildRewriteMapping env pkg [] undo with
    | .err d p _ => (some (.buildFailed d p), tree)
    | .outOfFuel => (some .buildDiverged, tree)
    | .ok s => (none, (doRewrite tree s.m).1)

/-! ## Further string functions of the Go library -/

/-- The scan of `strings.Split` for a non-empty separator.  The list returned is
never empty; `skip` counts the characters of a matched separator still to drop. -/
def splitGo (sep : Str) : Nat → Str → List Str
  | _, [] => [[]]
  | skip + 1, _ :: t => splitGo sep skip t
  | 0, c :: t =>
    if HasPrefix (c :: t) sep then [] :: splitGo sep (sep.length - 1) t
    else
      match splitGo sep 0 t with
      | [] => [[c]]
      | p :: ps => (c :: p) :: ps

/-- The call `strings.Split(s, sep)`: the pieces of `s` between the occurrences of
`sep`, scanned from the left; an empty `sep` splits after every character. -/
def Split (s sep : Str) : List Str :=
  if sep = [] then s.map (fun c => [c]) else splitGo sep 0 s

/-- The call `strings.Join(parts, sep)`. -/
def Join : List Str → Str → Str
  | [], _ => []
  | [a], _ => a
  | a :: b :: t, sep => a ++ sep ++ Join (b :: t) sep

/-- The call `strings.Contains(s, substr)`. -/
def Contains : Str → Str → Bool
  | [], sub => decide (sub = [])
  | c :: t, sub => HasPrefix (c :: t) sub || Contains t sub

/-- The size of Go's `int` in bits (`strconv.IntSize` on a 64 bit platform). -/
def intSize : Nat := 64

/-- The value of a decimal digit, if the character is one. -/
def digitValue (c : Char) : Option Nat :=
  if 48 ≤ c.toNat ∧ c.toNat ≤ 57 then some (c.toNat - 48) else none

/-- The digits of `strconv.Atoi`, read from the left onto the value so far; a
character that is no digit is the syntax error. -/
def parseDigits : Str → Nat → Option Nat
  | [], acc => some acc
  | c :: t, acc =>
    match digitValue c with
    | none => none
    | some d => parseDigits t (10 * acc + d)

/-- The call `strconv.Atoi(s)`: an optional sign and at least one decimal digit;
`none` stands for the syntax error and for the range error of a value that
does not fit an `int`. -/
def Atoi (s : Str) : Option Int :=
  match s with
  | [] => none
  | '-' :: t =>
    if t = [] then none
    else
      match parseDigits t 0 with
      | none => none
      | some n => if n ≤ 2 ^ (intSize - 1) then some (-(n : Int)) else none
  | '+' :: t =>
    if t = [] then none
    else
      match parseDigits t 0 with
      | none => none
      | some n => if n < 2 ^ (intSize - 1) then some (n : Int) else none
  | c :: t =>
    match parseDigits (c :: t) 0 with
    | none => none
    | some n => if n < 2 ^ (intSize - 1) then some (n : Int) else none

/-! ## `listLinkedPackages`, `versionComp` and `fixImports` -/

/-- One call of the walk function of `filepath.Walk`: the path relative to the
base as `filepath.Rel` gives it, whether `fi.Mode()&os.ModeSymlink != 0`, and
what `filepath.EvalSymlinks(path)` returns (`none` for its error). -/
structure WalkEntry where
  relpath : Str
  isSymlink : Bool
  target : Option Str
  deriving DecidableEq, Repr

/-- The walk of `listLinkedPackages` over the entries that `filepath.Walk` visits,
in its order.  An error returned by the walk function ends the walk; the links
collected so far are kept. -/
def walkLinks : List WalkEntry → List (List Str) → List (List Str)
  | [], links => links
  | e :: rest, links =>
    let parts := Split e.relpath ['/']
    if parts.length ≠ 2 then walkLinks rest links
    else if e.isSymlink then
      match e.target with
      | none => links
      | some target => walkLinks rest (links ++ [[parts.headD [], target]])
    else walkLinks rest links

/-- The function `listLinkedPackages`.  `installPath` tells whether
`dms3gx.InstallPath` succeeded; the result is the links and whether an error is
returned (the error of the walk is dropped by the source). -/
def listLinkedPackages (installPath : Bool) (walk : List WalkEntry) : List (List Str) × Bool :=
  if installPath then (walkLinks walk [], false) else ([], true)

/-- What `versionComp` returns: `(b, nil)`, or `(false, err)` with the error of
`strconv.Atoi` on the given component, or the panic of an index out of range. -/
inductive VersionResult where
  | value (badreq : Bool)
  | error (component : Str)
  | indexPanic
  deriving DecidableEq, Repr

/-- The assignment to `hp[len(hp)-1]` in `versionComp`. -/
def setLast (f : Str → Str) : List Str → List Str
  | [] => []
  | [a] => [f a]
  | a :: b :: t => a :: setLast f (b :: t)

/-- The loop over `"rc"` and `"beta"` of `versionComp`, on the last component of
`have`: the first of the two that the component contains cuts it off. -/
def dropPreRelease (last : Str) : Str :=
  if Contains last "rc".toList then (Split last "rc".toList).headD []
  else if Contains last "beta".toList then (Split last "beta".toList).headD []
  else last

/-- The comparison loop of `versionComp`, `rp[i]` being read off the front of the
second list. -/
def compareParts : List Str → List Str → VersionResult
  | [], _ => .value false
  | v :: hp, rp =>
    match Atoi v with
    | none => .error v
    | some hv =>
      match rp with
      | [] => .indexPanic
      | r :: rp' =>
        match Atoi r with
        | none => .error r
        | some rv =>
          if hv < rv then .value true
          else if hv > rv then .value false
          else compareParts hp rp'

/-- The function `versionComp`. -/
def versionComp (have_ req : Str) : VersionResult :=
  let hp := Split have_ ['.']
  let rp := Split req ['.']
  let hp := setLast dropPreRelease hp
  let l := min hp.length rp.length
  compareParts (hp.take l) (rp.take l)

/-- What the closure `rwf` of `fixImports` does on one import: it returns a string,
leaving the map `fixmap` in some state, or it panics on `parts[:4]`. -/
inductive FixResult where
  | ret (s : Str) (fixmap : GoMap)
  | sliceBoundsPanic
  deriving DecidableEq, Repr

/-- The closure `rwf` of `fixImports`.  `gopathSrc` holds what `FindPackageInDir` finds
under `$GOPATH/src/<canon>`. -/
def rwf (gopathSrc : List (Str × Package)) (fixmap : GoMap) (imp : Str) : FixResult :=
  if HasPrefix imp vendorImportRoot then
    let parts := Split imp ['/']
    if parts.length < 4 then .sliceBoundsPanic
    else
      let canon := Join (parts.take 4) ['/']
      let rest := Join (parts.drop 4) ['/']
      let rest := if rest ≠ [] then ['/'] ++ rest else rest
      match fixmap.get canon with
      | some base => .ret (base ++ rest) fixmap
      | none =>
        match FindPackageInDir gopathSrc canon with
        | none => .ret imp fixmap
        | some pkg =>
          if pkg.Dms3Gx.DvcsImport ≠ [] then
            .ret (pkg.Dms3Gx.DvcsImport ++ rest) (fixmap.set imp pkg.Dms3Gx.DvcsImport)
          else .ret imp fixmap
  else .ret imp fixmap

/-! ## Notions used in the statements and proofs -/

/-- What `loadDep` delivers for a hash (the name of the dependency is only logged). -/
def loadHash (env : Env) (h : Str) : Option Package := loadDep env { Name := [], Hash := h }

/-- A hash is reachable from `root`: it is the hash of a direct dependency, or of
a dependency listed by the manifest that `loadDep` finds for a reachable hash. -/
inductive Reachable (env : Env) (root : Package) : Str → Prop
  | direct {d : Dependency} : d ∈ root.Dependencies → Reachable env root d.Hash
  | step {h : Str} {p : Package} {d : Dependency} :
      Reachable env root h → loadHash env h = some p → d ∈ p.Dependencies →
      Reachable env root d.Hash

/-- The state after `seen[dep.Hash] = struct{}{}` and the call of `loadDep`. -/
def markSeen (s : BuildState) (h : Str) : BuildState :=
  { s with seen := s.seen ++ [h], loaded := s.loaded ++ [h] }

/-- The state after one dependency was marked, loaded and entered into the map. -/
def stepState (undo : Bool) (s : BuildState) (dep : Dependency) (cpkg : Package)
    (rootPackage : Bool) : BuildState :=
  { markSeen s dep.Hash with m := addRewriteForDep dep cpkg s.m undo rootPackage }

/-- The body of the loop of `process`, with the recursion depth left. -/
def processBody (env : Env) (undo : Bool) (fuel : Nat) (pkg : Package) (rootPackage : Bool)
    (dep : Dependency) (s : BuildState) : Outcome :=
  if dep.Hash ∈ s.seen then .ok s
  else
    match loadDep env dep with
    | none => .err dep.Name pkg.Name (markSeen s dep.Hash)
    | some cpkg => process env undo fuel cpkg false (stepState undo s dep cpkg rootPackage)

/-- The hashes for which `loadDep` can find a manifest. -/
def knownHashes (env : Env) : List Str :=
  env.pkgdir.map Prod.fst ++ env.globalPath.map Prod.fst

/-- How many known hashes are not yet in `seen`. -/
def unseen (env : Env) (s : BuildState) : Nat :=
  (knownHashes env).countP (fun h => decide (h ∉ s.seen))

/-- The internal identifier `"dms3gx/dms3fs/" + hash + "/" + name` of a dependency. -/
def internalId (h : Str) (p : Package) : Str := vendorImportRoot ++ h ++ ['/'] ++ p.Name

/-- The pairing (source identifier, target identifier) that a dependency with hash
`h` and manifest `p` stands for: external to internal for install, swapped for undo. -/
def entryOf (undo : Bool) (h : Str) (p : Package) : Str × Str :=
  if undo then (internalId h p, p.Dms3Gx.DvcsImport) else (p.Dms3Gx.DvcsImport, internalId h p)

/-- How a run of `process` changes the state: `new` lists the hashes it put into
`seen`, in order.  `failed` tells whether the run ended with the not-found error. -/
structure Grow (env : Env) (undo : Bool) (P : Str → Prop) (failed : Bool)
    (s s' : BuildState) (new : List Str) : Prop where
  seen_eq : s'.seen = s.seen ++ new
  loaded_eq : s'.loaded = s.loaded ++ new
  good : ∀ h ∈ new, P h ∧ h ∉ s.seen
  nodup : new.Nodup
  resolved : if failed then ∃ h ∈ new, loadHash env h = none
             else ∀ h ∈ new, loadHash env h ≠ none
  keys : ∀ k, k ∈ s'.m.keys ↔ k ∈ s.m.keys ∨
    ∃ h ∈ new, ∃ p, loadHash env h = some p ∧ p.Dms3Gx.DvcsImport ≠ [] ∧
      k = (entryOf undo h p).1
  vals : ∀ k v, s'.m.get k = some v → s.m.get k = some v ∨
    ∃ h ∈ new, ∃ p, loadHash env h = some p ∧ p.Dms3Gx.DvcsImport ≠ [] ∧
      (k, v) = entryOf undo h p
  keys_nodup : s.m.keys.Nodup → s'.m.keys.Nodup

/-- The initial state of `buildRewriteMapping`. -/
def initState (m : GoMap) : BuildState := { seen := [], m := m, loaded := [] }

/-- Two identifiers clash when one of them, followed by `/`, begins the other
followed by `/`: they are equal or one names something nested under the other. -/
def pathClash (a b : Str) : Bool :=
  HasPrefix (b ++ ['/']) (a ++ ['/']) || HasPrefix (a ++ ['/']) (b ++ ['/'])

/-- A mapping keeps sources and targets apart: among the entries that change
their identifier, no key clashes with a value. -/
def Separated (m : GoMap) : Prop :=
  ∀ e ∈ m, ∀ e' ∈ m, e.1 ≠ e.2 → e'.1 ≠ e'.2 → pathClash e'.1 e.2 = false

/-- A relative path lies exactly two levels deep: it is `hash/name`, with no
separator inside `hash` or `name`. -/
def TwoLevels (p hash name : Str) : Prop :=
  p = hash ++ ['/'] ++ name ∧ '/' ∉ hash ∧ '/' ∉ name

/-- The links that a walk is to report, in the words of the specification: one
pair (hash, resolved target) for each entry that lies exactly two levels deep
and is a symbolic link, and nothing for any other entry. -/
inductive Links : List WalkEntry → List (List Str) → Prop
  | done : Links [] []
  | slot {e : WalkEntry} {rest : List WalkEntry} {ls : List (List Str)}
      {hash name target : Str} :
      TwoLevels e.relpath hash name → e.isSymlink = true → e.target = some target →
      Links rest ls → Links (e :: rest) ([hash, target] :: ls)
  | other {e : WalkEntry} {rest : List WalkEntry} {ls : List (List Str)} :
      (e.isSymlink = false ∨ ¬ ∃ hash name, TwoLevels e.relpath hash name) →
      Links rest ls → Links (e :: rest) ls

/-- The matching policy of the specification, on a mapping without memoized
entries: an exact key gives its value; otherwise a key `K` with
`I = K + "/" + rest` gives `mapping[K] + "/" + rest`; otherwise, when no key
matches in either way, `I` is unchanged. -/
inductive PolicyResult (m : GoMap) (I : Str) : Str → Prop
  | exact {v : Str} : m.get I = some v → PolicyResult m I v
  | nested {K v rest : Str} : m.get I = none → m.get K = some v → I = K ++ ['/'] ++ rest →
      PolicyResult m I (v ++ ['/'] ++ rest)
  | unchanged : m.get I = none → (∀ K ∈ m.keys, ∀ rest, I ≠ K ++ ['/'] ++ rest) →
      PolicyResult m I I

/-- A component of a dotted decimal version: one or more decimal digits. -/
def IsDecimal (s : Str) : Prop := s ≠ [] ∧ ∀ c ∈ s, 48 ≤ c.toNat ∧ c.toNat ≤ 57

/-- The number that a string of decimal digits denotes. -/
def decimalValue (s : Str) : Nat := s.foldl (fun acc c => 10 * acc + (c.toNat - 48)) 0

/-- Strictly lower in component-wise numeric order, over the components that both
versions have: the first position at which they differ decides. -/
def versionLess : List Nat → List Nat → Bool
  | a :: as, b :: bs => if a < b then true else if b < a then false else versionLess as bs
  | _, _ => false

/-- The pre-release suffixes of the last component of `have`: none, `rc…` or `beta…`
(a `beta…` that holds no `rc`), without a dot. -/
inductive PreRelease : Str → Prop
  | release : PreRelease []
  | rc (z : Str) : '.' ∉ z → PreRelease ("rc".toList ++ z)
  | beta (z : Str) : '.' ∉ z → Contains z "rc".toList = false →
      PreRelease ("beta".toList ++ z)

/-! ## Concrete inputs -/

/-- A string literal as a Go string. -/
def str (s : String) : Str := s.toList

/-- A manifest with the given name, external identifier and (name, hash)
dependency entries. -/
def mkPackage (name dvcs : String) (deps : List (String × String)) : Package :=
  { Name := str name
    Dependencies := deps.map (fun d => { Name := str d.1, Hash := str d.2 })
    Dms3Gx := { DvcsImport := str dvcs, GoVersion := [] } }

/-- A root whose direct dependencies are `a` and `r`. -/
def shadowRoot : Package := mkPackage "root" "" [("a", "QmA"), ("r", "QmR")]

/-- The vendoring directory for `shadowRoot`: `a` depends on `b` and on `r`, `b`
depends on `t`; `r` and `t` declare the same external identifier (two versions
of one library). -/
def shadowEnv : Env :=
  { pkgdir :=
      [ (str "QmA", mkPackage "a" "" [("b", "QmB"), ("r", "QmR")]),
        (str "QmB", mkPackage "b" "" [("t", "QmT")]),
        (str "QmR", mkPackage "lib-r" "host.example/x/lib" []),
        (str "QmT", mkPackage "lib-t" "host.example/x/lib" []) ]
    globalPath := [] }

/-- A root with a diamond below it: `a` and `b` both depend on `c`. -/
def diamondRoot : Package := mkPackage "root" "" [("a", "QmA"), ("b", "QmB")]

/-- The manifests for `diamondRoot`; `b` is only in the global directory, `c`
declares no external identifier, and `QmZ` is not reachable. -/
def diamondEnv : Env :=
  { pkgdir :=
      [ (str "QmA", mkPackage "a" "host.example/x/a" [("c", "QmC")]),
        (str "QmC", mkPackage "c" "" []),
        (str "QmZ", mkPackage "z" "host.example/x/z" []) ]
    globalPath :=
      [ (str "QmB", mkPackage "b" "host.example/x/b" [("c", "QmC")]) ] }

/-- The hashes reachable from `diamondRoot`. -/
def diamondHashes : List Str := [str "QmA", str "QmB", str "QmC"]

/-- A root whose second dependency `b` resolves nowhere. -/
def brokenRoot : Package := mkPackage "root" "" [("a", "QmA"), ("b", "QmB")]

/-- The manifests for `brokenRoot`: only `a` is there. -/
def brokenEnv : Env :=
  { pkgdir := [ (str "QmA", mkPackage "a" "host.example/x/a" []) ]
    globalPath := [] }

/-- A root whose dependency `a` depends on `b`, which depends on `a` again. -/
def cycleRoot : Package := mkPackage "root" "" [("a", "QmA")]

/-- The manifests for `cycleRoot`: a cycle between `a` and `b`, and `b` also lists
itself. -/
def cycleEnv : Env :=
  { pkgdir :=
      [ (str "QmA", mkPackage "a" "host.example/x/a" [("b", "QmB")]),
        (str "QmB", mkPackage "b" "host.example/x/b" [("a", "QmA"), ("b", "QmB")]) ]
    globalPath := [] }

/-- A vendoring tree as the walk visits it: the slots `QmA/a` and `QmC/c` are
symbolic links, `QmB/b` is an ordinary directory with a symbolic link deeper
inside. -/
def linkTree : List WalkEntry :=
  [ { relpath := str ".", isSymlink := false, target := none },
    { relpath := str "QmA", isSymlink := false, target := none },
    { relpath := str "QmA/a", isSymlink := true, target := some (str "/w/src/host.example/x/a") },
    { relpath := str "QmB", isSymlink := false, target := none },
    { relpath := str "QmB/b", isSymlink := false, target := none },
    { relpath := str "QmB/b/doc", isSymlink := true, target := some (str "/tmp/doc") },
    { relpath := str "QmC", isSymlink := false, target := none },
    { relpath := str "QmC/c", isSymlink := true, target := some (str "/w/src/host.example/x/c") } ]

/-! ## Lemmas -/

theorem GoMap.get_set (m : GoMap) (k v k' : Str) :
    (GoMap.set m k v).get k' = if k = k' then some v else m.get k' := by
  induction m with
  | nil => simp [GoMap.set, GoMap.get]
  | cons e t ih =>
    obtain ⟨a, b⟩ := e
    by_cases h : a = k
    · subst h
      by_cases h2 : a = k' <;> simp [GoMap.set, GoMap.get, h2]
    · by_cases h2 : a = k'
      · subst h2
        have : ¬ k = a := fun e => h e.symm
        simp [GoMap.set, GoMap.get, h, this]
      · simp [GoMap.set, GoMap.get, h, h2, ih]

theorem GoMap.mem_keys_set (m : GoMap) (k v k' : Str) :
    k' ∈ (GoMap.set m k v).keys ↔ k' = k ∨ k' ∈ m.keys := by
  induction m with
  | nil => simp [GoMap.set, GoMap.keys]
  | cons e t ih =>
    obtain ⟨a, b⟩ := e
    by_cases h : a = k
    · subst h
      simp [GoMap.set, GoMap.keys]
    · simp only [GoMap.keys] at ih
      simp [GoMap.set, GoMap.keys, h, ih]
      tauto

theorem GoMap.get_isSome_iff (m : GoMap) (k : Str) :
    (m.get k).isSome = true ↔ k ∈ m.keys := by
  induction m with
  | nil => simp [GoMap.get, GoMap.keys]
  | cons e t ih =>
    obtain ⟨a, b⟩ := e
    simp only [GoMap.keys] at ih
    by_cases h : a = k
    · simp [GoMap.get, GoMap.keys, h]
    · have : ¬ k = a := fun e => h e.symm
      simp [GoMap.get, GoMap.keys, h, ih, this]

theorem GoMap.get_eq_none_iff (m : GoMap) (k : Str) :
    m.get k = none ↔ k ∉ m.keys := by
  rw [← GoMap.get_isSome_iff]
  cases m.get k <;> simp

theorem GoMap.set_of_not_mem (m : GoMap) (k v : Str) (h : k ∉ m.keys) :
    GoMap.set m k v = m ++ [(k, v)] := by
  induction m with
  | nil => simp [GoMap.set]
  | cons e t ih =>
    obtain ⟨a, b⟩ := e
    simp only [GoMap.keys, List.map_cons, List.mem_cons, not_or] at h
    have h1 : ¬ a = k := fun e => h.1 e.symm
    simp [GoMap.set, h1]
    exact ih h.2

theorem GoMap.nodup_keys_set (m : GoMap) (k v : Str) (h : m.keys.Nodup) :
    (GoMap.set m k v).keys.Nodup := by
  induction m with
  | nil => simp [GoMap.set, GoMap.keys]
  | cons e t ih =>
    obtain ⟨a, b⟩ := e
    have h' : a ∉ GoMap.keys t ∧ (GoMap.keys t).Nodup := by
      simpa [GoMap.keys] using h
    by_cases h1 : a = k
    · subst h1
      simpa [GoMap.set, GoMap.keys] using h
    · have hk : (GoMap.set ((a, b) :: t) k v).keys = a :: (GoMap.set t k v).keys := by
        simp [GoMap.set, GoMap.keys, h1]
      rw [hk, List.nodup_cons]
      refine ⟨?_, ih h'.2⟩
      rw [GoMap.mem_keys_set]
      rintro (e | e)
      · exact h1 e
      · exact h'.1 e

theorem loadDep_eq_loadHash (env : Env) (dep : Dependency) :
    loadDep env dep = loadHash env dep.Hash := rfl

theorem process_succ (env : Env) (undo : Bool) (fuel : Nat) (pkg : Package) (root : Bool)
    (s : BuildState) :
    process env undo (fuel + 1) pkg root s
      = forDeps (processBody env undo fuel pkg root) pkg.Dependencies s := rfl

theorem process_induct (env : Env) (undo : Bool) (P : Str → Prop)
    (Rok Rerr : BuildState → BuildState → Prop)
    (hclosed : ∀ (h : Str) (p : Package) (d : Dependency),
      P h → loadHash env h = some p → d ∈ p.Dependencies → P d.Hash)
    (hrefl : ∀ s, Rok s s)
    (htrans : ∀ a b c, Rok a b → Rok b c → Rok a c)
    (hmix : ∀ a b c, Rok a b → Rerr b c → Rerr a c)
    (hfail : ∀ (s : BuildState) (h : Str), P h → h ∉ s.seen → loadHash env h = none →
      Rerr s (markSeen s h))
    (hstep : ∀ (s : BuildState) (dep : Dependency) (cpkg : Package) (root : Bool),
      P dep.Hash → dep.Hash ∉ s.seen → loadHash env dep.Hash = some cpkg →
      Rok s (stepState undo s dep cpkg root)) :
    ∀ (fuel : Nat) (pkg : Package) (root : Bool) (s : BuildState),
      (∀ d ∈ pkg.Dependencies, P d.Hash) →
      (∀ s', process env undo fuel pkg root s = .ok s' → Rok s s') ∧
      (∀ a b s', process env undo fuel pkg root s = .err a b s' → Rerr s s') := by
  intro fuel
  induction fuel with
  | zero => intro pkg root s _; constructor <;> intros <;> simp [process] at *
  | succ fuel ih =>
    intro pkg root s hP
    rw [process_succ]
    generalize pkg.Dependencies = deps at hP
    induction deps generalizing s with
    | nil =>
      constructor
      · intro s' h; simp [forDeps] at h; subst h; exact hrefl s
      · intro a b s' h; simp [forDeps] at h
    | cons dep rest ihl =>
      have hPd : P dep.Hash := hP dep (List.mem_cons_self _ _)
      have hPr : ∀ d ∈ rest, P d.Hash := fun d hd => hP d (List.mem_cons_of_mem _ hd)
      by_cases hseen : dep.Hash ∈ s.seen
      · have hb : processBody env undo fuel pkg root dep s = .ok s := by
          simp [processBody, hseen]
        simp only [forDeps, hb]
        exact ihl s hPr
      · cases hl : loadDep env dep with
        | none =>
          have hb : processBody env undo fuel pkg root dep s
              = .err dep.Name pkg.Name (markSeen s dep.Hash) := by
            simp [processBody, hseen, hl]
          simp only [forDeps, hb]
          constructor
          · intro s' h; simp at h
          · intro a b s' h
            simp only [Outcome.err.injEq] at h
            rw [← h.2.2]
            exact hfail s dep.Hash hPd hseen hl
        | some cpkg =>
          have hb : processBody env undo fuel pkg root dep s
              = process env undo fuel cpkg false (stepState undo s dep cpkg root) := by
            simp [processBody, hseen, hl]
          have h1 : Rok s (stepState undo s dep cpkg root) := hstep s dep cpkg root hPd hseen hl
          have hrec := ih cpkg false (stepState undo s dep cpkg root)
            (fun d hd => hclosed dep.Hash cpkg d hPd hl hd)
          simp only [forDeps, hb]
          cases hp : process env undo fuel cpkg false (stepState undo s dep cpkg root) with
          | ok s3 =>
            have h2 : Rok s s3 := htrans _ _ _ h1 (hrec.1 s3 hp)
            have h3 := ihl s3 hPr
            constructor
            · intro s' h; exact htrans _ _ _ h2 (h3.1 s' h)
            · intro a b s' h; exact hmix _ _ _ h2 (h3.2 a b s' h)
          | err a b s3 =>
            constructor
            · intro s' h; simp at h
            · intro a' b' s' h
              simp only [Outcome.err.injEq] at h
              rw [← h.2.2]
              exact hmix _ _ _ h1 (hrec.2 a b s3 hp)
          | outOfFuel =>
            constructor <;> intros <;> simp at *

theorem FindPackageInDir_mem {t : List (Str × Package)} {h : Str} {p : Package}
    (hf : FindPackageInDir t h = some p) : h ∈ t.map Prod.fst := by
  induction t with
  | nil => simp [FindPackageInDir] at hf
  | cons e t ih =>
    obtain ⟨a, b⟩ := e
    by_cases hh : a = h
    · subst hh
      exact List.mem_cons_self _ _
    · simp only [FindPackageInDir, hh, if_false] at hf
      exact List.mem_cons_of_mem _ (ih hf)

theorem loadHash_mem_known {env : Env} {h : Str} {p : Package}
    (hl : loadHash env h = some p) : h ∈ knownHashes env := by
  unfold loadHash loadDep at hl
  simp only [knownHashes, List.mem_append]
  cases h1 : FindPackageInDir env.pkgdir h with
  | some c => exact Or.inl (FindPackageInDir_mem h1)
  | none =>
    simp only [h1] at hl
    cases h2 : FindPackageInDir env.globalPath h with
    | some c => exact Or.inr (FindPackageInDir_mem h2)
    | none => simp [h2] at hl

theorem countP_lt_of_mem {α : Type} (p q : α → Bool) (l : List α)
    (himp : ∀ x ∈ l, p x = true → q x = true) (x : α) (hx : x ∈ l) (hq : q x = true)
    (hp : p x = false) : l.countP p < l.countP q := by
  induction l with
  | nil => simp at hx
  | cons a t ih =>
    have hle : t.countP p ≤ t.countP q :=
      List.countP_mono_left (fun y hy => himp y (List.mem_cons_of_mem _ hy))
    rcases List.mem_cons.1 hx with rfl | hx'
    · rw [List.countP_cons_of_neg _ _ (by simp [hp]), List.countP_cons_of_pos _ _ hq]
      omega
    · have := ih (fun y hy => himp y (List.mem_cons_of_mem _ hy)) hx'
      by_cases hpa : p a = true
      · rw [List.countP_cons_of_pos _ _ hpa,
          List.countP_cons_of_pos _ _ (himp a (List.mem_cons_self _ _) hpa)]
        omega
      · rw [List.countP_cons_of_neg _ _ hpa]
        by_cases hqa : q a = true
        · rw [List.countP_cons_of_pos _ _ hqa]; omega
        · rw [List.countP_cons_of_neg _ _ hqa]; omega

theorem unseen_mono (env : Env) {s s' : BuildState} (h : ∀ x ∈ s.seen, x ∈ s'.seen) :
    unseen env s' ≤ unseen env s := by
  unfold unseen
  apply List.countP_mono_left
  intro x _ hx
  simp only [decide_eq_true_eq] at hx ⊢
  exact fun hc => hx (h x hc)

theorem addRewriteForDep_eq (dep : Dependency) (pkg : Package) (m : GoMap) (undo ow : Bool) :
    addRewriteForDep dep pkg m undo ow =
      if pkg.Dms3Gx.DvcsImport = [] then m
      else if (m.get (entryOf undo dep.Hash pkg).1).isSome = true ∧ ow = false then m
      else m.set (entryOf undo dep.Hash pkg).1 (entryOf undo dep.Hash pkg).2 := by
  unfold addRewriteForDep entryOf internalId
  by_cases h : pkg.Dms3Gx.DvcsImport = []
  · simp [h]
  · cases undo <;> cases ow <;> simp [h, Option.isSome_iff_ne_none]

theorem addRewriteForDep_keys (dep : Dependency) (pkg : Package) (m : GoMap) (undo ow : Bool)
    (k : Str) :
    k ∈ (addRewriteForDep dep pkg m undo ow).keys ↔
      k ∈ m.keys ∨ (pkg.Dms3Gx.DvcsImport ≠ [] ∧ k = (entryOf undo dep.Hash pkg).1) := by
  rw [addRewriteForDep_eq]
  by_cases h : pkg.Dms3Gx.DvcsImport = []
  · simp [h]
  · simp only [h, if_false, ne_eq, not_false_eq_true, true_and]
    split
    · rename_i hc
      have := (GoMap.get_isSome_iff m _).1 hc.1
      constructor
      · exact Or.inl
      · rintro (h1 | h1)
        · exact h1
        · rw [h1]; exact this
    · rw [GoMap.mem_keys_set]; tauto

theorem addRewriteForDep_get (dep : Dependency) (pkg : Package) (m : GoMap) (undo ow : Bool)
    (k v : Str) (hg : (addRewriteForDep dep pkg m undo ow).get k = some v) :
    m.get k = some v ∨ (pkg.Dms3Gx.DvcsImport ≠ [] ∧ (k, v) = entryOf undo dep.Hash pkg) := by
  rw [addRewriteForDep_eq] at hg
  by_cases h : pkg.Dms3Gx.DvcsImport = []
  · simp only [h, if_true] at hg; exact Or.inl hg
  · simp only [h, if_false] at hg
    split at hg
    · exact Or.inl hg
    · rw [GoMap.get_set] at hg
      split at hg
      · rename_i hk
        right
        refine ⟨h, ?_⟩
        simp only [Option.some.injEq] at hg
        rw [← hk, ← hg]
      · exact Or.inl hg

theorem addRewriteForDep_nodup (dep : Dependency) (pkg : Package) (m : GoMap) (undo ow : Bool)
    (hn : m.keys.Nodup) : (addRewriteForDep dep pkg m undo ow).keys.Nodup := by
  rw [addRewriteForDep_eq]
  split
  · exact hn
  · split
    · exact hn
    · exact GoMap.nodup_keys_set _ _ _ hn

theorem Grow.refl (env : Env) (undo : Bool) (P : Str → Prop) (s : BuildState) :
    Grow env undo P false s s [] where
  seen_eq := by simp
  loaded_eq := by simp
  good := by simp
  nodup := by simp
  resolved := by simp
  keys := by simp
  vals := by intro k v h; exact Or.inl h
  keys_nodup := id

theorem Grow.trans {env : Env} {undo : Bool} {P : Str → Prop} {f : Bool}
    {a b c : BuildState} {n1 n2 : List Str}
    (h1 : Grow env undo P false a b n1) (h2 : Grow env undo P f b c n2) :
    Grow env undo P f a c (n1 ++ n2) where
  seen_eq := by rw [h2.seen_eq, h1.seen_eq, List.append_assoc]
  loaded_eq := by rw [h2.loaded_eq, h1.loaded_eq, List.append_assoc]
  good := by
    intro h hh
    rcases List.mem_append.1 hh with hh | hh
    · exact h1.good h hh
    · have := h2.good h hh
      rw [h1.seen_eq] at this
      exact ⟨this.1, fun hc => this.2 (List.mem_append_left _ hc)⟩
  nodup := by
    rw [List.nodup_append]
    refine ⟨h1.nodup, h2.nodup, ?_⟩
    intro x hx1 hx2
    have := (h2.good x hx2).2
    rw [h1.seen_eq] at this
    exact this (List.mem_append_right _ hx1)
  resolved := by
    have r1 := h1.resolved
    have r2 := h2.resolved
    simp only [Bool.false_eq_true, if_false] at r1
    cases f with
    | true =>
      simp only [if_true] at r2 ⊢
      obtain ⟨h, hh, hn⟩ := r2
      exact ⟨h, List.mem_append_right _ hh, hn⟩
    | false =>
      simp only [Bool.false_eq_true, if_false] at r2 ⊢
      intro h hh
      rcases List.mem_append.1 hh with hh | hh
      · exact r1 h hh
      · exact r2 h hh
  keys := by
    intro k
    rw [h2.keys, h1.keys]
    constructor
    · rintro ((hk | ⟨h, hh, rest⟩) | ⟨h, hh, rest⟩)
      · exact Or.inl hk
      · exact Or.inr ⟨h, List.mem_append_left _ hh, rest⟩
      · exact Or.inr ⟨h, List.mem_append_right _ hh, rest⟩
    · rintro (hk | ⟨h, hh, rest⟩)
      · exact Or.inl (Or.inl hk)
      · rcases List.mem_append.1 hh with hh | hh
        · exact Or.inl (Or.inr ⟨h, hh, rest⟩)
        · exact Or.inr ⟨h, hh, rest⟩
  vals := by
    intro k v hg
    rcases h2.vals k v hg with hg | ⟨h, hh, rest⟩
    · rcases h1.vals k v hg with hg | ⟨h, hh, rest⟩
      · exact Or.inl hg
      · exact Or.inr ⟨h, List.mem_append_left _ hh, rest⟩
    · exact Or.inr ⟨h, List.mem_append_right _ hh, rest⟩
  keys_nodup := fun hn => h2.keys_nodup (h1.keys_nodup hn)

theorem Grow.fail (env : Env) (undo : Bool) (P : Str → Prop) (s : BuildState) (h : Str)
    (hP : P h) (hs : h ∉ s.seen) (hl : loadHash env h = none) :
    Grow env undo P true s (markSeen s h) [h] where
  seen_eq := rfl
  loaded_eq := rfl
  good := by simpa using ⟨hP, hs⟩
  nodup := by simp
  resolved := by simpa using hl
  keys := by
    intro k
    simp only [markSeen, List.mem_singleton, exists_eq_left, hl]
    simp
  vals := by intro k v hg; exact Or.inl hg
  keys_nodup := id

theorem Grow.step (env : Env) (undo : Bool) (P : Str → Prop) (s : BuildState)
    (dep : Dependency) (cpkg : Package) (root : Bool)
    (hP : P dep.Hash) (hs : dep.Hash ∉ s.seen) (hl : loadHash env dep.Hash = some cpkg) :
    Grow env undo P false s (stepState undo s dep cpkg root) [dep.Hash] where
  seen_eq := rfl
  loaded_eq := rfl
  good := by simpa using ⟨hP, hs⟩
  nodup := by simp
  resolved := by simp [hl]
  keys := by
    intro k
    simp only [stepState, List.mem_singleton, exists_eq_left, hl, Option.some.injEq]
    rw [addRewriteForDep_keys]
    simp
  vals := by
    intro k v hg
    simp only [stepState] at hg
    rcases addRewriteForDep_get _ _ _ _ _ _ _ hg with h1 | h1
    · exact Or.inl h1
    · exact Or.inr ⟨dep.Hash, by simp, cpkg, hl, h1.1, h1.2⟩
  keys_nodup := fun hn => addRewriteForDep_nodup _ _ _ _ _ hn

/-- Every run of `process` that ends, ends in a state grown from the initial one. -/
theorem process_grow (env : Env) (undo : Bool) (P : Str → Prop)
    (hclosed : ∀ (h : Str) (p : Package) (d : Dependency),
      P h → loadHash env h = some p → d ∈ p.Dependencies → P d.Hash)
    (fuel : Nat) (pkg : Package) (root : Bool) (s : BuildState)
    (hP : ∀ d ∈ pkg.Dependencies, P d.Hash) :
    (∀ s', process env undo fuel pkg root s = .ok s' → ∃ new, Grow env undo P false s s' new) ∧
    (∀ a b s', process env undo fuel pkg root s = .err a b s' →
      ∃ new, Grow env undo P true s s' new) := by
  refine process_induct env undo P (fun s s' => ∃ new, Grow env undo P false s s' new)
    (fun s s' => ∃ new, Grow env undo P true s s' new) hclosed ?_ ?_ ?_ ?_ ?_ fuel pkg root s hP
  · exact fun s => ⟨[], Grow.refl env undo P s⟩
  · rintro a b c ⟨n1, h1⟩ ⟨n2, h2⟩; exact ⟨n1 ++ n2, h1.trans h2⟩
  · rintro a b c ⟨n1, h1⟩ ⟨n2, h2⟩; exact ⟨n1 ++ n2, h1.trans h2⟩
  · intro s h hP hs hl; exact ⟨[h], Grow.fail env undo P s h hP hs hl⟩
  · intro s dep cpkg root hP hs hl; exact ⟨[dep.Hash], Grow.step env undo P s dep cpkg root hP hs hl⟩

theorem unseen_markSeen_lt (env : Env) (s : BuildState) (h : Str) (p : Package)
    (hs : h ∉ s.seen) (hl : loadHash env h = some p) (s2 : BuildState)
    (h2 : s2.seen = s.seen ++ [h]) : unseen env s2 < unseen env s := by
  unfold unseen
  apply countP_lt_of_mem _ _ _ _ h (loadHash_mem_known hl)
  · simpa using hs
  · simp [h2]
  · intro x _ hx
    simp only [decide_eq_true_eq, h2, List.mem_append, not_or] at hx ⊢
    exact hx.1

/-- With a budget above the number of unseen known hashes, `process` never runs
out of recursion depth. -/
theorem process_ne_outOfFuel (env : Env) (undo : Bool) :
    ∀ (fuel : Nat) (pkg : Package) (root : Bool) (s : BuildState),
      unseen env s < fuel → process env undo fuel pkg root s ≠ .outOfFuel := by
  intro fuel
  induction fuel with
  | zero => intro pkg root s h; omega
  | succ fuel ih =>
    intro pkg root s hlt
    rw [process_succ]
    generalize pkg.Dependencies = deps
    induction deps generalizing s with
    | nil => simp [forDeps]
    | cons dep rest ihl =>
      by_cases hseen : dep.Hash ∈ s.seen
      · have hb : processBody env undo fuel pkg root dep s = .ok s := by
          simp [processBody, hseen]
        simp only [forDeps, hb]
        exact ihl s hlt
      · cases hl : loadDep env dep with
        | none =>
          have hb : processBody env undo fuel pkg root dep s
              = .err dep.Name pkg.Name (markSeen s dep.Hash) := by
            simp [processBody, hseen, hl]
          simp [forDeps, hb]
        | some cpkg =>
          have hb : processBody env undo fuel pkg root dep s
              = process env undo fuel cpkg false (stepState undo s dep cpkg root) := by
            simp [processBody, hseen, hl]
          have hlt2 : unseen env (stepState undo s dep cpkg root) < fuel := by
            have := unseen_markSeen_lt env s dep.Hash cpkg hseen hl
              (stepState undo s dep cpkg root) rfl
            omega
          have hne := ih cpkg false (stepState undo s dep cpkg root) hlt2
          simp only [forDeps, hb]
          cases hp : process env undo fuel cpkg false (stepState undo s dep cpkg root) with
          | ok s3 =>
            obtain ⟨new, hg⟩ := (process_grow env undo (fun _ => True) (fun _ _ _ _ _ _ => trivial)
              fuel cpkg false (stepState undo s dep cpkg root) (fun _ _ => trivial)).1 s3 hp
            have hsub : ∀ x ∈ s.seen, x ∈ s3.seen := by
              intro x hx
              rw [hg.seen_eq]
              exact List.mem_append_left _ (by
                show x ∈ s.seen ++ [dep.Hash]
                exact List.mem_append_left _ hx)
            have := unseen_mono env hsub
            exact ihl s3 (by omega)
          | err a b s3 => simp
          | outOfFuel => exact absurd hp hne

/-- The function `buildRewriteMapping` always returns: its recursion budget is never
used up. -/
theorem buildRewriteMapping_ne_outOfFuel (env : Env) (pkg : Package) (m : GoMap)
    (undo : Bool) : buildRewriteMapping env pkg m undo ≠ .outOfFuel := by
  unfold buildRewriteMapping
  apply process_ne_outOfFuel
  unfold unseen depthBound knownHashes
  show List.countP (fun h => decide (h ∉ ([] : List Str)))
    (List.map Prod.fst env.pkgdir ++ List.map Prod.fst env.globalPath) < _
  have := List.countP_le_length (fun h => decide (h ∉ ([] : List Str)))
    (l := List.map Prod.fst env.pkgdir ++ List.map Prod.fst env.globalPath)
  simp only [List.length_append, List.length_map] at this
  omega

/-- After a successful run of `process`, `seen` has only grown, holds every
dependency of the package, and every hash that entered it resolves to a manifest
whose dependencies are all in it. -/
theorem process_ok_closed (env : Env) (undo : Bool) :
    ∀ (fuel : Nat) (pkg : Package) (root : Bool) (s s' : BuildState),
      process env undo fuel pkg root s = .ok s' →
      (∀ x ∈ s.seen, x ∈ s'.seen) ∧ (∀ d ∈ pkg.Dependencies, d.Hash ∈ s'.seen) ∧
      (∀ h ∈ s'.seen, h ∉ s.seen →
        ∃ p, loadHash env h = some p ∧ ∀ d ∈ p.Dependencies, d.Hash ∈ s'.seen) := by
  intro fuel
  induction fuel with
  | zero => intro pkg root s s' h; simp [process] at h
  | succ fuel ih =>
    intro pkg root s s'
    rw [process_succ]
    generalize pkg.Dependencies = deps
    induction deps generalizing s with
    | nil =>
      intro h
      simp only [forDeps, Outcome.ok.injEq] at h
      subst h
      exact ⟨fun x hx => hx, by simp, fun h hh hn => absurd hh hn⟩
    | cons dep rest ihl =>
      by_cases hseen : dep.Hash ∈ s.seen
      · have hb : processBody env undo fuel pkg root dep s = .ok s := by
          simp [processBody, hseen]
        simp only [forDeps, hb]
        intro h
        obtain ⟨h1, h2, h3⟩ := ihl s h
        refine ⟨h1, ?_, h3⟩
        intro d hd
        rcases List.mem_cons.1 hd with rfl | hd
        · exact h1 _ hseen
        · exact h2 d hd
      · cases hl : loadDep env dep with
        | none =>
          have hb : processBody env undo fuel pkg root dep s
              = .err dep.Name pkg.Name (markSeen s dep.Hash) := by
            simp [processBody, hseen, hl]
          simp [forDeps, hb]
        | some cpkg =>
          have hb : processBody env undo fuel pkg root dep s
              = process env undo fuel cpkg false (stepState undo s dep cpkg root) := by
            simp [processBody, hseen, hl]
          simp only [forDeps, hb]
          cases hp : process env undo fuel cpkg false (stepState undo s dep cpkg root) with
          | ok s3 =>
            intro h
            obtain ⟨a1, a2, a3⟩ := ih cpkg false (stepState undo s dep cpkg root) s3 hp
            obtain ⟨b1, b2, b3⟩ := ihl s3 h
            have hs2 : (stepState undo s dep cpkg root).seen = s.seen ++ [dep.Hash] := rfl
            refine ⟨?_, ?_, ?_⟩
            · intro x hx
              exact b1 x (a1 x (by rw [hs2]; exact List.mem_append_left _ hx))
            · intro d hd
              rcases List.mem_cons.1 hd with rfl | hd
              · exact b1 _ (a1 _ (by rw [hs2]; simp))
              · exact b2 d hd
            · intro x hx hn
              by_cases hx3 : x ∈ s3.seen
              · by_cases hx2 : x ∈ (stepState undo s dep cpkg root).seen
                · rw [hs2] at hx2
                  rcases List.mem_append.1 hx2 with hx2 | hx2
                  · exact absurd hx2 hn
                  · have : x = dep.Hash := by simpa using hx2
                    subst this
                    exact ⟨cpkg, hl, fun d hd => b1 _ (a2 d hd)⟩
                · obtain ⟨p, hp1, hp2⟩ := a3 x hx3 hx2
                  exact ⟨p, hp1, fun d hd => b1 _ (hp2 d hd)⟩
              · exact b3 x hx hx3
          | err a b s3 => simp
          | outOfFuel => simp

theorem Reachable.closed (env : Env) (root : Package) (h : Str) (p : Package) (d : Dependency)
    (hr : Reachable env root h) (hl : loadHash env h = some p) (hd : d ∈ p.Dependencies) :
    Reachable env root d.Hash := Reachable.step hr hl hd

/-- A set of hashes that holds the direct dependencies and is closed under the
dependencies of resolved manifests holds every reachable hash. -/
theorem Reachable.mem_of_closed {env : Env} {root : Package} (S : Str → Prop)
    (hroot : ∀ d ∈ root.Dependencies, S d.Hash)
    (hclosed : ∀ h p, S h → loadHash env h = some p → ∀ d ∈ p.Dependencies, S d.Hash)
    {h : Str} (hr : Reachable env root h) : S h := by
  induction hr with
  | direct hd => exact hroot _ hd
  | step _ hl hd ih => exact hclosed _ _ ih hl _ hd

theorem buildRewriteMapping_eq (env : Env) (pkg : Package) (m : GoMap) (undo : Bool) :
    buildRewriteMapping env pkg m undo
      = process env undo (depthBound env) pkg true (initState m) := rfl

/-- A successful build has seen every reachable hash, and each of them resolves. -/
theorem build_ok_reachable {env : Env} {pkg : Package} {m : GoMap} {undo : Bool}
    {s : BuildState} (hb : buildRewriteMapping env pkg m undo = .ok s) {h : Str}
    (hr : Reachable env pkg h) : h ∈ s.seen ∧ loadHash env h ≠ none := by
  rw [buildRewriteMapping_eq] at hb
  obtain ⟨_, c2, c3⟩ := process_ok_closed env undo _ _ _ _ _ hb
  have hin : h ∈ s.seen := by
    refine Reachable.mem_of_closed (fun x => x ∈ s.seen) c2 ?_ hr
    intro x p hx hl d hd
    obtain ⟨p', hp', hc⟩ := c3 x hx (by simp [initState])
    rw [hl] at hp'
    cases hp'
    exact hc d hd
  refine ⟨hin, ?_⟩
  obtain ⟨p, hp, _⟩ := c3 h hin (by simp [initState])
  simp [hp]

/-- What a finished build did, in terms of the reachable hashes. -/
theorem build_grow (env : Env) (pkg : Package) (m : GoMap) (undo : Bool) :
    (∀ s, buildRewriteMapping env pkg m undo = .ok s →
      ∃ new, Grow env undo (Reachable env pkg) false (initState m) s new) ∧
    (∀ a b s, buildRewriteMapping env pkg m undo = .err a b s →
      ∃ new, Grow env undo (Reachable env pkg) true (initState m) s new) :=
  process_grow env undo (Reachable env pkg) (Reachable.closed env pkg) _ pkg true _
    (fun _ hd => Reachable.direct hd)

/-- The build fails exactly when some reachable hash does not resolve. -/
theorem build_err_iff (env : Env) (pkg : Package) (m : GoMap) (undo : Bool) :
    (∃ a b s, buildRewriteMapping env pkg m undo = .err a b s) ↔
      ∃ h, Reachable env pkg h ∧ loadHash env h = none := by
  constructor
  · rintro ⟨a, b, s, hb⟩
    obtain ⟨new, hg⟩ := (build_grow env pkg m undo).2 a b s hb
    have := hg.resolved
    simp only [if_true] at this
    obtain ⟨h, hh, hn⟩ := this
    exact ⟨h, (hg.good h hh).1, hn⟩
  · rintro ⟨h, hr, hn⟩
    cases hb : buildRewriteMapping env pkg m undo with
    | ok s => exact absurd hn (build_ok_reachable hb hr).2
    | err a b s => exact ⟨a, b, s, rfl⟩
    | outOfFuel => exact absurd hb (buildRewriteMapping_ne_outOfFuel env pkg m undo)

/-- When every reachable hash resolves the build succeeds, and the hashes it has
seen and loaded are the reachable ones, each once. -/
theorem build_ok_of_resolves (env : Env) (pkg : Package) (m : GoMap) (undo : Bool)
    (hres : ∀ h, Reachable env pkg h → loadHash env h ≠ none) :
    ∃ s new, buildRewriteMapping env pkg m undo = .ok s ∧
      Grow env undo (Reachable env pkg) false (initState m) s new ∧
      ∀ h, h ∈ new ↔ Reachable env pkg h := by
  cases hb : buildRewriteMapping env pkg m undo with
  | ok s =>
    obtain ⟨new, hg⟩ := (build_grow env pkg m undo).1 s hb
    refine ⟨s, new, rfl, hg, fun h => ⟨fun hh => (hg.good h hh).1, fun hr => ?_⟩⟩
    have := (build_ok_reachable hb hr).1
    rw [hg.seen_eq] at this
    simpa [initState] using this
  | err a b s =>
    obtain ⟨h, hr, hn⟩ := (build_err_iff env pkg m undo).1 ⟨a, b, s, hb⟩
    exact absurd hn (hres h hr)
  | outOfFuel => exact absurd hb (buildRewriteMapping_ne_outOfFuel env pkg m undo)

/-- A list of hashes that holds the direct dependencies and is closed under the
dependencies of resolved manifests holds every reachable hash. -/
theorem Reachable.mem_of_closed_list {env : Env} {root : Package} (L : List Str)
    (hroot : ∀ d ∈ root.Dependencies, d.Hash ∈ L)
    (hclosed : ∀ h ∈ L, ∀ d ∈ ((loadHash env h).map Package.Dependencies).getD [], d.Hash ∈ L)
    {h : Str} (hr : Reachable env root h) : h ∈ L := by
  refine Reachable.mem_of_closed (fun x => x ∈ L) hroot ?_ hr
  intro x p hx hl d hd
  have := hclosed x hx d
  rw [hl] at this
  exact this hd

theorem diamond_reachable {h : Str} (hr : Reachable diamondEnv diamondRoot h) :
    h ∈ diamondHashes :=
  Reachable.mem_of_closed_list diamondHashes (by decide) (by decide) hr

theorem diamond_resolves (h : Str) (hr : Reachable diamondEnv diamondRoot h) :
    loadHash diamondEnv h ≠ none := by
  have hall : ∀ x ∈ diamondHashes, loadHash diamondEnv x ≠ none := by decide
  exact hall h (diamond_reachable hr)

/-- At the diamond, two reachable dependencies that declare an external identifier
and share it, or share their internal identifier, are the same. -/
theorem diamond_distinct :
    ∀ h1 ∈ diamondHashes, ∀ h2 ∈ diamondHashes, ∀ p1 p2,
      loadHash diamondEnv h1 = some p1 → loadHash diamondEnv h2 = some p2 →
      p1.Dms3Gx.DvcsImport ≠ [] → p2.Dms3Gx.DvcsImport ≠ [] →
      (p1.Dms3Gx.DvcsImport = p2.Dms3Gx.DvcsImport ∨
        vendorImportRoot ++ h1 ++ ['/'] ++ p1.Name = vendorImportRoot ++ h2 ++ ['/'] ++ p2.Name) →
      h1 = h2 := by
  have key : ∀ h1 ∈ diamondHashes, ∀ h2 ∈ diamondHashes,
      ∀ p1 ∈ (loadHash diamondEnv h1).toList, ∀ p2 ∈ (loadHash diamondEnv h2).toList,
        p1.Dms3Gx.DvcsImport ≠ [] → p2.Dms3Gx.DvcsImport ≠ [] →
        (p1.Dms3Gx.DvcsImport = p2.Dms3Gx.DvcsImport ∨
          vendorImportRoot ++ h1 ++ ['/'] ++ p1.Name
            = vendorImportRoot ++ h2 ++ ['/'] ++ p2.Name) → h1 = h2 := by decide
  intro h1 m1 h2 m2 p1 p2 l1 l2
  exact key h1 m1 h2 m2 p1 (by rw [l1]; simp) p2 (by rw [l2]; simp)

theorem HasPrefix_iff (s pre : Str) : HasPrefix s pre = true ↔ ∃ rest, s = pre ++ rest := by
  unfold HasPrefix
  rw [List.isPrefixOf_iff_prefix]
  constructor
  · rintro ⟨t, ht⟩; exact ⟨t, ht.symm⟩
  · rintro ⟨t, ht⟩; exact ⟨t, ht.symm⟩

theorem HasPrefix_append (pre rest : Str) : HasPrefix (pre ++ rest) pre = true :=
  (HasPrefix_iff _ _).2 ⟨rest, rfl⟩

/-- Replacing the first occurrence of a leading `k` puts `v` in its place. -/
theorem Replace1_append (k v rest : Str) : Replace1 (k ++ rest) k v = v ++ rest := by
  unfold Replace1
  by_cases hkv : k = v
  · simp [hkv]
  · simp only [hkv, if_false]
    cases hs : k ++ rest with
    | nil =>
      have hk : k = [] := (List.append_eq_nil.1 hs).1
      have hr : rest = [] := (List.append_eq_nil.1 hs).2
      simp [replaceFirst, hk, hr]
    | cons c t =>
      have hp : HasPrefix (c :: t) k = true := by rw [← hs]; exact HasPrefix_append k rest
      simp only [replaceFirst, hp, if_true]
      rw [← hs, List.drop_left]

theorem rangeFind_none_iff (inp : Str) (m : GoMap) :
    rangeFind inp m = none ↔ ∀ k ∈ m.keys, HasPrefix inp (k ++ ['/']) = false := by
  induction m with
  | nil => simp [rangeFind, GoMap.keys]
  | cons e t ih =>
    obtain ⟨a, b⟩ := e
    simp only [GoMap.keys] at ih
    by_cases h : HasPrefix inp (a ++ ['/']) = true
    · simp [rangeFind, GoMap.keys, h]
    · simp only [Bool.not_eq_true] at h
      simp [rangeFind, GoMap.keys, h, ih]

/-- The entry found by the `range` loop is the first one, in iteration order,
whose key followed by `/` begins the identifier. -/
theorem rangeFind_some {inp : Str} {m : GoMap} {k v : Str} (h : rangeFind inp m = some (k, v)) :
    HasPrefix inp (k ++ ['/']) = true ∧
    ∃ pre post, m = pre ++ (k, v) :: post ∧
      ∀ e ∈ pre, HasPrefix inp (e.1 ++ ['/']) = false := by
  induction m with
  | nil => simp [rangeFind] at h
  | cons e t ih =>
    obtain ⟨a, b⟩ := e
    by_cases hp : HasPrefix inp (a ++ ['/']) = true
    · simp only [rangeFind, hp, if_true, Option.some.injEq, Prod.mk.injEq] at h
      obtain ⟨rfl, rfl⟩ := h
      exact ⟨hp, [], t, rfl, by simp⟩
    · simp only [rangeFind, hp, if_false] at h
      obtain ⟨h1, pre, post, hm, hpre⟩ := ih h
      refine ⟨h1, (a, b) :: pre, post, by simp [hm], ?_⟩
      intro e he
      rcases List.mem_cons.1 he with rfl | he
      · simpa using hp
      · exact hpre e he

theorem GoMap.get_append_of_none (pre : GoMap) (k : Str) (rest : GoMap)
    (h : ∀ e ∈ pre, e.1 ≠ k) : GoMap.get (pre ++ rest) k = GoMap.get rest k := by
  induction pre with
  | nil => rfl
  | cons e t ih =>
    obtain ⟨a, b⟩ := e
    have ha : ¬ a = k := h (a, b) (List.mem_cons_self _ _)
    simp only [List.cons_append, GoMap.get, ha, if_false]
    exact ih (fun e he => h e (List.mem_cons_of_mem _ he))

/-- The value found by the `range` loop is the value of that key. -/
theorem rangeFind_get {inp : Str} {m : GoMap} {k v : Str} (h : rangeFind inp m = some (k, v)) :
    m.get k = some v := by
  obtain ⟨hp, pre, post, hm, hpre⟩ := rangeFind_some h
  rw [hm, GoMap.get_append_of_none]
  · simp [GoMap.get]
  · intro e he hek
    have := hpre e he
    rw [hek, hp] at this
    exact Bool.noConfusion this

theorem rangeFind_mem_keys {inp : Str} {m : GoMap} {k v : Str}
    (h : rangeFind inp m = some (k, v)) : k ∈ m.keys := by
  rw [← GoMap.get_isSome_iff, rangeFind_get h]
  rfl

theorem rwm_of_get {m : GoMap} {inp v : Str} (h : m.get inp = some v) : rwm m inp = (v, m) := by
  simp [rwm, h]

theorem rwm_of_rangeFind {m : GoMap} {inp k v : Str} (hg : m.get inp = none)
    (h : rangeFind inp m = some (k, v)) :
    rwm m inp = (Replace1 inp k v, m ++ [(inp, Replace1 inp k v)]) := by
  simp only [rwm, hg, h]
  rw [GoMap.set_of_not_mem _ _ _ ((GoMap.get_eq_none_iff m inp).1 hg)]

theorem rwm_of_none {m : GoMap} {inp : Str} (hg : m.get inp = none)
    (h : rangeFind inp m = none) : rwm m inp = (inp, m ++ [(inp, inp)]) := by
  simp only [rwm, hg, h]
  rw [GoMap.set_of_not_mem _ _ _ ((GoMap.get_eq_none_iff m inp).1 hg)]

theorem GoMap.get_append_single (m : GoMap) (k v k' : Str) (h : m.get k = none) :
    GoMap.get (m ++ [(k, v)]) k' = if k = k' then some v else m.get k' := by
  rw [← GoMap.set_of_not_mem _ _ _ ((GoMap.get_eq_none_iff m k).1 h), GoMap.get_set]

theorem pathClash_of_both {a b c : Str} (ha : HasPrefix c (a ++ ['/']) = true)
    (hb : HasPrefix c (b ++ ['/']) = true) : pathClash a b = true := by
  unfold pathClash HasPrefix at *
  rw [List.isPrefixOf_iff_prefix] at ha hb
  rw [Bool.or_eq_true, List.isPrefixOf_iff_prefix, List.isPrefixOf_iff_prefix]
  exact List.prefix_or_prefix_of_prefix ha hb

theorem HasPrefix_trans {a b c : Str} (h1 : HasPrefix b a = true) (h2 : HasPrefix c b = true) :
    HasPrefix c a = true := by
  unfold HasPrefix at *
  rw [List.isPrefixOf_iff_prefix] at *
  exact h1.trans h2

theorem HasPrefix_refl (a : Str) : HasPrefix a a = true := by
  have := HasPrefix_append a []
  simpa using this

theorem GoMap.mem_of_get {m : GoMap} {k v : Str} (h : m.get k = some v) : (k, v) ∈ m := by
  induction m with
  | nil => simp [GoMap.get] at h
  | cons e t ih =>
    obtain ⟨a, b⟩ := e
    by_cases ha : a = k
    · simp only [GoMap.get, ha, if_true, Option.some.injEq] at h
      simp [ha, h]
    · simp only [GoMap.get, ha, if_false] at h
      exact List.mem_cons_of_mem _ (ih h)

theorem rangeFind_mem {inp : Str} {m : GoMap} {k v : Str} (h : rangeFind inp m = some (k, v)) :
    (k, v) ∈ m := by
  obtain ⟨_, pre, post, hm, _⟩ := rangeFind_some h
  rw [hm]
  simp

theorem rangeFind_append (inp : Str) (m : GoMap) (x : Str × Str) :
    rangeFind inp (m ++ [x]) =
      match rangeFind inp m with
      | some e => some e
      | none => if HasPrefix inp (x.1 ++ ['/']) then some x else none := by
  induction m with
  | nil => obtain ⟨a, b⟩ := x; simp [rangeFind]
  | cons e t ih =>
    obtain ⟨a, b⟩ := e
    by_cases h : HasPrefix inp (a ++ ['/']) = true
    · simp [rangeFind, h]
    · simp only [List.cons_append, rangeFind, h, if_false]
      exact ih

theorem Replace1_self (s k : Str) : Replace1 s k k = s := by simp [Replace1]

theorem GoMap.get_of_mem {M : GoMap} {k v : Str} (hmem : (k, v) ∈ M)
    (huniq : ∀ v', (k, v') ∈ M → v' = v) : M.get k = some v := by
  cases hg : M.get k with
  | some v' => rw [huniq v' (GoMap.mem_of_get hg)]
  | none =>
    have := (GoMap.get_eq_none_iff M k).1 hg
    exact absurd (by simpa [GoMap.keys] using ⟨v, hmem⟩) this

theorem GoMap.eq_of_mem_nodup {m : GoMap} (hnd : m.keys.Nodup) {k v v' : Str}
    (h1 : (k, v) ∈ m) (h2 : (k, v') ∈ m) : v' = v := by
  induction m with
  | nil => simp at h1
  | cons e t ih =>
    obtain ⟨a, b⟩ := e
    have hnd' : a ∉ GoMap.keys t ∧ (GoMap.keys t).Nodup := by
      simpa [GoMap.keys] using hnd
    have hnot : ∀ x, (a, x) ∉ t := by
      intro x hx
      exact hnd'.1 (by simpa [GoMap.keys] using ⟨x, hx⟩)
    rcases List.mem_cons.1 h1 with e1 | e1 <;> rcases List.mem_cons.1 h2 with e2 | e2
    · rw [Prod.mk.injEq] at e1 e2
      rw [e1.2, e2.2]
    · rw [Prod.mk.injEq] at e1
      rw [e1.1] at e2
      exact absurd e2 (hnot v')
    · rw [Prod.mk.injEq] at e2
      rw [e2.1] at e1
      exact absurd e1 (hnot v)
    · exact ih hnd'.2 e1 e2

/-- An identifier that a mapping does not change: the entries with that key, if
any, map it to itself, and when there is none, every key that followed by `/`
begins it is mapped to itself. -/
theorem rwm_fixed (M : GoMap) (r : Str) (hk : ∀ v', (r, v') ∈ M → v' = r)
    (h : (∃ v', (r, v') ∈ M) ∨
      ∀ k' v', (k', v') ∈ M → HasPrefix r (k' ++ ['/']) = true → k' = v') :
    (rwm M r).1 = r := by
  cases hg : M.get r with
  | some v' =>
    rw [rwm_of_get hg]
    exact hk v' (GoMap.mem_of_get hg)
  | none =>
    have hnone : ∀ v', (r, v') ∉ M := by
      intro v' hv'
      exact (GoMap.get_eq_none_iff M r).1 hg (by simpa [GoMap.keys] using ⟨v', hv'⟩)
    rcases h with ⟨v', hv'⟩ | h
    · exact absurd hv' (hnone v')
    · cases hf : rangeFind r M with
      | none => rw [rwm_of_none hg hf]
      | some x =>
        obtain ⟨k', v'⟩ := x
        rw [rwm_of_rangeFind hg hf]
        have := h k' v' (rangeFind_mem hf) (rangeFind_some hf).1
        subst this
        exact Replace1_self r k'

/-- In a separated mapping, an identifier `r` that is the value `v` of a changing
entry, or lies below `v`, is the key of identity entries only, and only keys of
identity entries lie above it. -/
theorem separated_target (m : GoMap) (hsep : Separated m) (k v r : Str)
    (hmem : (k, v) ∈ m) (hkv : k ≠ v) (hr : HasPrefix (r ++ ['/']) (v ++ ['/']) = true) :
    (∀ k' v', (k', v') ∈ m → k' = r → v' = r) ∧
    (∀ k' v', (k', v') ∈ m → HasPrefix r (k' ++ ['/']) = true → k' = v') := by
  have hnokey : ∀ k' v', (k', v') ∈ m → k' ≠ v' →
      HasPrefix (r ++ ['/']) (k' ++ ['/']) = false := by
    intro k' v' hm' hne
    cases hp : HasPrefix (r ++ ['/']) (k' ++ ['/']) with
    | false => rfl
    | true =>
      have := pathClash_of_both hp hr
      rw [hsep (k, v) hmem (k', v') hm' hkv hne] at this
      exact Bool.noConfusion this
  constructor
  · intro k' v' hm' hk'
    by_contra hne
    have := hnokey k' v' hm' (fun h => hne (by rw [← h, hk']))
    rw [hk', HasPrefix_refl] at this
    exact Bool.noConfusion this
  · intro k' v' hm' hp
    by_contra hne
    have := hnokey k' v' hm' hne
    rw [HasPrefix_trans hp (HasPrefix_append r ['/'])] at this
    exact Bool.noConfusion this

theorem pathClash_mono {a b a0 b0 : Str} (h : pathClash a b = true)
    (ha : HasPrefix (a ++ ['/']) (a0 ++ ['/']) = true)
    (hb : HasPrefix (b ++ ['/']) (b0 ++ ['/']) = true) : pathClash a0 b0 = true := by
  unfold pathClash at h
  rcases Bool.or_eq_true _ _ ▸ h with h1 | h1
  · exact pathClash_of_both (HasPrefix_trans ha h1) hb
  · exact pathClash_of_both ha (HasPrefix_trans hb h1)

theorem Separated_append (m : GoMap) (hsep : Separated m) (I r : Str)
    (hnew : I = r ∨ ∃ k v, (k, v) ∈ m ∧ k ≠ v ∧ HasPrefix (I ++ ['/']) (k ++ ['/']) = true ∧
      HasPrefix (r ++ ['/']) (v ++ ['/']) = true) :
    Separated (m ++ [(I, r)]) := by
  intro e he e' he' hne hne'
  rcases hnew with hid | ⟨k, v, hmem, hkv, hIk, hrv⟩
  · have h1 : e ∈ m := by
      rcases List.mem_append.1 he with h | h
      · exact h
      · simp only [List.mem_singleton] at h
        subst h
        exact absurd hid hne
    have h2 : e' ∈ m := by
      rcases List.mem_append.1 he' with h | h
      · exact h
      · simp only [List.mem_singleton] at h
        subst h
        exact absurd hid hne'
    exact hsep e h1 e' h2 hne hne'
  · cases hc : pathClash e'.1 e.2 with
    | false => rfl
    | true =>
      have hk' : HasPrefix (e'.1 ++ ['/']) (e'.1 ++ ['/']) = true := HasPrefix_refl _
      have he2 : HasPrefix (e.2 ++ ['/']) (e.2 ++ ['/']) = true := HasPrefix_refl _
      rcases List.mem_append.1 he with h1 | h1 <;> rcases List.mem_append.1 he' with h2 | h2
      · rw [hsep e h1 e' h2 hne hne'] at hc
        exact Bool.noConfusion hc
      · simp only [List.mem_singleton] at h2
        subst h2
        have := pathClash_mono hc hIk he2
        rw [hsep e h1 (k, v) hmem hne hkv] at this
        exact Bool.noConfusion this
      · simp only [List.mem_singleton] at h1
        subst h1
        have := pathClash_mono hc hk' hrv
        rw [hsep (k, v) hmem e' h2 hkv hne'] at this
        exact Bool.noConfusion this
      · simp only [List.mem_singleton] at h1 h2
        subst h1
        subst h2
        have := pathClash_mono hc hIk hrv
        rw [hsep (k, v) hmem (k, v) hmem hkv hkv] at this
        exact Bool.noConfusion this

/-- What the lookup derives from the entry `k -> v` found by the loop. -/
theorem Replace1_of_rangeFind {inp : Str} {m : GoMap} {k v : Str}
    (h : rangeFind inp m = some (k, v)) :
    ∃ rest, inp = k ++ ['/'] ++ rest ∧ Replace1 inp k v = v ++ ['/'] ++ rest := by
  obtain ⟨rest, hrest⟩ := (HasPrefix_iff _ _).1 (rangeFind_some h).1
  refine ⟨rest, hrest, ?_⟩
  conv_lhs => rw [hrest, List.append_assoc]
  rw [Replace1_append, List.append_assoc]

/-- The build for a root whose only dependency is a leaf: one entry. -/
theorem build_single (env : Env) (root : Package) (dep : Dependency) (pkg : Package)
    (undo : Bool) (hroot : root.Dependencies = [dep]) (hload : loadDep env dep = some pkg)
    (hleaf : pkg.Dependencies = []) (hD : pkg.Dms3Gx.DvcsImport ≠ []) :
    buildRewriteMapping env root [] undo =
      .ok { seen := [dep.Hash], m := [entryOf undo dep.Hash pkg], loaded := [dep.Hash] } := by
  have hk : dep.Hash ∈ knownHashes env := loadHash_mem_known hload
  have hpos : 0 < env.pkgdir.length + env.globalPath.length := by
    have := List.length_pos_of_mem hk
    simpa [knownHashes] using this
  obtain ⟨n, hn⟩ : ∃ n, depthBound env = n + 2 := ⟨env.pkgdir.length + env.globalPath.length - 1, by
    unfold depthBound; omega⟩
  rw [buildRewriteMapping_eq, hn, process_succ, hroot]
  have hb : processBody env undo (n + 1) root true dep (initState [])
      = process env undo (n + 1) pkg false (stepState undo (initState []) dep pkg true) := by
    simp [processBody, initState, hload]
  have hp : process env undo (n + 1) pkg false (stepState undo (initState []) dep pkg true)
      = .ok (stepState undo (initState []) dep pkg true) := by
    rw [process_succ, hleaf]
    rfl
  simp only [forDeps, hb, hp]
  have hm : addRewriteForDep dep pkg [] undo true = [entryOf undo dep.Hash pkg] := by
    rw [addRewriteForDep_eq]
    simp [hD, GoMap.set, GoMap.get]
  simp [stepState, markSeen, initState, hm]

theorem rwm_single_exact (k v : Str) : (rwm [(k, v)] k).1 = v := by
  simp [rwm, GoMap.get]

theorem rwm_single_nested (k v rest : Str) :
    (rwm [(k, v)] (k ++ ['/'] ++ rest)).1 = v ++ ['/'] ++ rest := by
  have hg : GoMap.get [(k, v)] (k ++ ['/'] ++ rest) = none := by
    have : ¬ k = k ++ ['/'] ++ rest := by
      intro h
      have := congrArg List.length h
      simp at this
    simp [GoMap.get, this]
  have hf : rangeFind (k ++ ['/'] ++ rest) [(k, v)] = some (k, v) := by
    have hp : HasPrefix (k ++ ['/'] ++ rest) (k ++ ['/']) = true := HasPrefix_append _ _
    simp only [rangeFind, hp, if_true]
  rw [rwm_of_rangeFind hg hf]
  show Replace1 (k ++ ['/'] ++ rest) k v = _
  rw [List.append_assoc, Replace1_append, List.append_assoc]

/-- A run of `process` that ends within its recursion budget ends in the same way
with a larger budget. -/
theorem process_fuel_succ (env : Env) (undo : Bool) :
    ∀ (fuel : Nat) (pkg : Package) (root : Bool) (s : BuildState),
      process env undo fuel pkg root s ≠ .outOfFuel →
      process env undo (fuel + 1) pkg root s = process env undo fuel pkg root s := by
  intro fuel
  induction fuel with
  | zero => intro pkg root s h; exact absurd rfl h
  | succ fuel ih =>
    intro pkg root s
    rw [process_succ, process_succ]
    generalize pkg.Dependencies = deps
    induction deps generalizing s with
    | nil => intro _; rfl
    | cons dep rest ihl =>
      by_cases hseen : dep.Hash ∈ s.seen
      · have hb : ∀ f, processBody env undo f pkg root dep s = .ok s := by
          intro f; simp [processBody, hseen]
        simp only [forDeps, hb]
        exact ihl s
      · cases hl : loadDep env dep with
        | none =>
          have hb : ∀ f, processBody env undo f pkg root dep s
              = .err dep.Name pkg.Name (markSeen s dep.Hash) := by
            intro f; simp [processBody, hseen, hl]
          simp only [forDeps, hb]
          intro _; trivial
        | some cpkg =>
          have hb : ∀ f, processBody env undo f pkg root dep s
              = process env undo f cpkg false (stepState undo s dep cpkg root) := by
            intro f; simp [processBody, hseen, hl]
          simp only [forDeps, hb]
          cases hp : process env undo fuel cpkg false (stepState undo s dep cpkg root) with
          | ok s3 =>
            rw [ih cpkg false _ (by rw [hp]; simp), hp]
            exact ihl s3
          | err a b s3 =>
            rw [ih cpkg false _ (by rw [hp]; simp), hp]
            intro _; trivial
          | outOfFuel => intro h; exact absurd rfl h

/-- The recursion budget of `buildRewriteMapping` does not shape its result: any
larger budget gives the same outcome. -/
theorem buildRewriteMapping_fuel_irrelevant (env : Env) (pkg : Package) (m : GoMap)
    (undo : Bool) (n : Nat) :
    process env undo (depthBound env + n) pkg true (initState m)
      = buildRewriteMapping env pkg m undo := by
  induction n with
  | zero => rfl
  | succ n ih =>
    rw [← Nat.add_assoc, process_fuel_succ, ih]
    rw [ih]
    exact buildRewriteMapping_ne_outOfFuel env pkg m undo

/-- When the source identifiers of the reachable dependencies are pairwise
distinct, the mapping built from an empty map holds exactly their pairings. -/
theorem build_get_iff (env : Env) (pkg : Package) (undo : Bool)
    (hres : ∀ h, Reachable env pkg h → loadHash env h ≠ none)
    (hinj : ∀ h1 h2 p1 p2, Reachable env pkg h1 → Reachable env pkg h2 →
      loadHash env h1 = some p1 → loadHash env h2 = some p2 →
      p1.Dms3Gx.DvcsImport ≠ [] → p2.Dms3Gx.DvcsImport ≠ [] →
      (entryOf undo h1 p1).1 = (entryOf undo h2 p2).1 → h1 = h2) :
    ∃ s, buildRewriteMapping env pkg [] undo = .ok s ∧
      ∀ k v, s.m.get k = some v ↔
        ∃ h p, Reachable env pkg h ∧ loadHash env h = some p ∧
          p.Dms3Gx.DvcsImport ≠ [] ∧ (k, v) = entryOf undo h p := by
  obtain ⟨s, new, hb, hg, hnew⟩ := build_ok_of_resolves env pkg [] undo hres
  refine ⟨s, hb, fun k v => ⟨fun hget => ?_, ?_⟩⟩
  · rcases hg.vals k v hget with h0 | ⟨h, hh, p, hl, hne, he⟩
    · simp [initState, GoMap.get] at h0
    · exact ⟨h, p, (hnew h).1 hh, hl, hne, he⟩
  · rintro ⟨h, p, hr, hl, hne, he⟩
    have hk : k = (entryOf undo h p).1 := by rw [← he]
    have hv : v = (entryOf undo h p).2 := by rw [← he]
    have hmem : k ∈ s.m.keys := (hg.keys k).2 (Or.inr ⟨h, (hnew h).2 hr, p, hl, hne, hk⟩)
    obtain ⟨v', hv'⟩ := Option.isSome_iff_exists.1 ((GoMap.get_isSome_iff s.m k).2 hmem)
    rcases hg.vals k v' hv' with h0 | ⟨h', hh', p', hl', hne', he'⟩
    · simp [initState, GoMap.get] at h0
    · have hk' : k = (entryOf undo h' p').1 := by rw [← he']
      have hv'' : v' = (entryOf undo h' p').2 := by rw [← he']
      have hhh : h = h' := hinj h h' p p' hr ((hnew h').1 hh') hl hl' hne hne' (by
        rw [← hk, ← hk'])
      subst hhh
      rw [hl] at hl'
      cases hl'
      rw [hv', hv'', hv]

theorem HasPrefix_cons_self (c : Char) (t : Str) : HasPrefix (c :: t) [c] = true := by
  simp [HasPrefix, List.isPrefixOf]

theorem HasPrefix_cons_ne (x s0 : Char) (t sep : Str) (h : x ≠ s0) :
    HasPrefix (x :: t) (s0 :: sep) = false := by
  have : ¬ s0 = x := fun e => h e.symm
  simp [HasPrefix, List.isPrefixOf, this]

theorem splitGo_cons_of_match (sep : Str) (x : Char) (t : Str)
    (h : HasPrefix (x :: t) sep = true) :
    splitGo sep 0 (x :: t) = [] :: splitGo sep (sep.length - 1) t := by
  simp [splitGo, h]

theorem splitGo_cons_of_not (sep : Str) (x : Char) (t : Str)
    (h : HasPrefix (x :: t) sep = false) (p : Str) (ps : List Str)
    (hp : splitGo sep 0 t = p :: ps) :
    splitGo sep 0 (x :: t) = (x :: p) :: ps := by
  simp [splitGo, h, hp]

theorem splitGo_ne_nil (sep : Str) : ∀ (s : Str) (skip : Nat), splitGo sep skip s ≠ [] := by
  intro s
  induction s with
  | nil => intro skip; cases skip <;> simp [splitGo]
  | cons x t ih =>
    intro skip
    cases skip with
    | succ n => simpa [splitGo] using ih n
    | zero =>
      simp only [splitGo]
      split
      · simp
      · split <;> simp

theorem Join_cons_cons (x : Char) (p : Str) (ps : List Str) (sep : Str) :
    Join ((x :: p) :: ps) sep = x :: Join (p :: ps) sep := by
  cases ps <;> simp [Join]

theorem Join_nil_cons (p : Str) (ps : List Str) (sep : Str) :
    Join ([] :: p :: ps) sep = sep ++ Join (p :: ps) sep := by
  simp [Join]

/-- Splitting at a character: a piece without the character, followed by the
character, is the first part. -/
theorem splitGo_char_append (c : Char) (a rest : Str) (ha : c ∉ a) :
    splitGo [c] 0 (a ++ c :: rest) = a :: splitGo [c] 0 rest := by
  induction a with
  | nil =>
    rw [List.nil_append, splitGo_cons_of_match _ _ _ (HasPrefix_cons_self c rest)]
    rfl
  | cons x a ih =>
    have hx : x ≠ c := fun e => ha (by simp [e])
    have ha' : c ∉ a := fun e => ha (List.mem_cons_of_mem _ e)
    rw [List.cons_append]
    exact splitGo_cons_of_not _ _ _ (HasPrefix_cons_ne x c _ [] hx) _ _ (ih ha')

theorem splitGo_char_last (c : Char) (a : Str) (ha : c ∉ a) : splitGo [c] 0 a = [a] := by
  induction a with
  | nil => simp [splitGo]
  | cons x a ih =>
    have hx : x ≠ c := fun e => ha (by simp [e])
    have ha' : c ∉ a := fun e => ha (List.mem_cons_of_mem _ e)
    exact splitGo_cons_of_not _ _ _ (HasPrefix_cons_ne x c _ [] hx) _ _ (ih ha')

theorem Split_char (c : Char) (s : Str) : Split s [c] = splitGo [c] 0 s := by
  simp [Split]

/-- Splitting what was joined with a character gives the parts back, when no
part holds the character. -/
theorem Split_Join (c : Char) (parts : List Str) (hne : parts ≠ [])
    (hfree : ∀ p ∈ parts, c ∉ p) : Split (Join parts [c]) [c] = parts := by
  rw [Split_char]
  induction parts with
  | nil => exact absurd rfl hne
  | cons a t ih =>
    cases t with
    | nil => simpa [Join] using splitGo_char_last c a (hfree a (List.mem_cons_self _ _))
    | cons b t =>
      have : Join (a :: b :: t) [c] = a ++ c :: Join (b :: t) [c] := by simp [Join]
      rw [this, splitGo_char_append c a _ (hfree a (List.mem_cons_self _ _))]
      rw [ih (by simp) (fun p hp => hfree p (List.mem_cons_of_mem _ hp))]

/-- The parts of a split at a character hold no such character, and joined with
it they give the string back. -/
theorem Join_Split (c : Char) (s : Str) :
    Join (Split s [c]) [c] = s ∧ ∀ p ∈ Split s [c], c ∉ p := by
  rw [Split_char]
  induction s with
  | nil => simp [splitGo, Join]
  | cons x t ih =>
    by_cases hx : c = x
    · subst hx
      have hs : splitGo [c] 0 (c :: t) = [] :: splitGo [c] 0 t :=
        splitGo_cons_of_match _ _ _ (HasPrefix_cons_self c t)
      rw [hs]
      obtain ⟨p, ps, hps⟩ := List.exists_cons_of_ne_nil (splitGo_ne_nil [c] t 0)
      rw [hps] at ih ⊢
      refine ⟨?_, ?_⟩
      · rw [Join_nil_cons, ih.1]; rfl
      · intro q hq
        rcases List.mem_cons.1 hq with rfl | hq
        · simp
        · exact ih.2 q hq
    · obtain ⟨p, ps, hps⟩ := List.exists_cons_of_ne_nil (splitGo_ne_nil [c] t 0)
      have hs : splitGo [c] 0 (x :: t) = (x :: p) :: ps :=
        splitGo_cons_of_not _ _ _ (HasPrefix_cons_ne x c _ [] (fun e => hx e.symm)) _ _ hps
      rw [hs]
      rw [hps] at ih
      refine ⟨?_, ?_⟩
      · rw [Join_cons_cons, ih.1]
      · intro q hq
        rcases List.mem_cons.1 hq with rfl | hq
        · intro hc
          rcases List.mem_cons.1 hc with e | e
          · exact hx e
          · exact ih.2 p (List.mem_cons_self _ _) e
        · exact ih.2 q (List.mem_cons_of_mem _ hq)

/-- A path has exactly two parts when it is `hash/name` with no further `/`. -/
theorem Split_length_two_iff (s : Str) :
    (Split s ['/']).length = 2 ↔
      ∃ hash name, s = hash ++ ['/'] ++ name ∧ '/' ∉ hash ∧ '/' ∉ name := by
  constructor
  · intro h
    obtain ⟨hj, hf⟩ := Join_Split '/' s
    match hs : Split s ['/'], h with
    | [a, b], _ =>
      rw [hs] at hj hf
      exact ⟨a, b, by rw [← hj]; simp [Join], hf a (by simp), hf b (by simp)⟩
  · rintro ⟨hash, name, rfl, h1, h2⟩
    have : hash ++ ['/'] ++ name = Join [hash, name] ['/'] := by simp [Join]
    rw [this, Split_Join '/' [hash, name] (by simp) (by
      intro p hp
      rcases List.mem_cons.1 hp with rfl | hp
      · exact h1
      · rw [List.mem_singleton.1 hp]; exact h2)]
    rfl

theorem Split_hash_name (hash name : Str) (h1 : '/' ∉ hash) (h2 : '/' ∉ name) :
    Split (hash ++ ['/'] ++ name) ['/'] = [hash, name] := by
  have : hash ++ ['/'] ++ name = Join [hash, name] ['/'] := by simp [Join]
  rw [this]
  exact Split_Join '/' [hash, name] (by simp) (by
    intro p hp
    rcases List.mem_cons.1 hp with rfl | hp
    · exact h1
    · rw [List.mem_singleton.1 hp]; exact h2)

theorem walkLinks_links (walk : List WalkEntry)
    (hres : ∀ e ∈ walk, e.isSymlink = true → (∃ hash name, TwoLevels e.relpath hash name) →
      e.target ≠ none) :
    ∀ acc, ∃ ls, Links walk ls ∧ walkLinks walk acc = acc ++ ls := by
  induction walk with
  | nil => intro acc; exact ⟨[], Links.done, by simp [walkLinks]⟩
  | cons e rest ih =>
    intro acc
    have ih' := ih (fun x hx => hres x (List.mem_cons_of_mem _ hx))
    by_cases hlen : (Split e.relpath ['/']).length = 2
    · obtain ⟨hash, name, hp, h1, h2⟩ := (Split_length_two_iff e.relpath).1 hlen
      have hparts : Split e.relpath ['/'] = [hash, name] := by
        rw [hp]; exact Split_hash_name hash name h1 h2
      cases hsym : e.isSymlink with
      | false =>
        obtain ⟨ls, hl, hw⟩ := ih' acc
        refine ⟨ls, Links.other (Or.inl hsym) hl, ?_⟩
        simp [walkLinks, hparts, hsym, hw]
      | true =>
        cases ht : e.target with
        | none => exact absurd ht (hres e (List.mem_cons_self _ _) hsym ⟨hash, name, hp, h1, h2⟩)
        | some t =>
          obtain ⟨ls, hl, hw⟩ := ih' (acc ++ [[hash, t]])
          refine ⟨[hash, t] :: ls, Links.slot ⟨hp, h1, h2⟩ hsym ht hl, ?_⟩
          simp [walkLinks, hparts, hsym, ht, hw]
    · obtain ⟨ls, hl, hw⟩ := ih' acc
      refine ⟨ls, Links.other (Or.inr ?_) hl, ?_⟩
      · rintro ⟨hash, name, hp, h1, h2⟩
        exact hlen ((Split_length_two_iff e.relpath).2 ⟨hash, name, hp, h1, h2⟩)
      · simp [walkLinks, hlen, hw]

theorem TwoLevels_unique {p h1 n1 h2 n2 : Str} (a : TwoLevels p h1 n1) (b : TwoLevels p h2 n2) :
    h1 = h2 ∧ n1 = n2 := by
  have e1 := Split_hash_name h1 n1 a.2.1 a.2.2
  have e2 := Split_hash_name h2 n2 b.2.1 b.2.2
  rw [← a.1] at e1
  rw [← b.1, e1] at e2
  simpa using e2

/-- The links of the specification are determined by the walk. -/
theorem Links_unique {walk : List WalkEntry} {l1 l2 : List (List Str)}
    (a : Links walk l1) (b : Links walk l2) : l1 = l2 := by
  induction a generalizing l2 with
  | done => cases b; rfl
  | slot ht hs htg _ ih =>
    cases b with
    | slot ht' hs' htg' hr' =>
      obtain ⟨e1, _⟩ := TwoLevels_unique ht ht'
      rw [htg] at htg'
      cases htg'
      rw [e1, ih hr']
    | other hno _ =>
      rcases hno with h | h
      · rw [hs] at h; exact Bool.noConfusion h
      · exact absurd ⟨_, _, ht⟩ h
  | other hno _ ih =>
    cases b with
    | slot ht' hs' _ _ =>
      rcases hno with h | h
      · rw [hs'] at h; exact Bool.noConfusion h
      · exact absurd ⟨_, _, ht'⟩ h
    | other _ hr' => exact ih hr'

/-- On a mapping with one key, an identifier nested under that key has one policy
result only. -/
theorem PolicyResult_single {K0 v0 rest0 r : Str}
    (h : PolicyResult [(K0, v0)] (K0 ++ ['/'] ++ rest0) r) : r = v0 ++ ['/'] ++ rest0 := by
  have hne : ¬ K0 = K0 ++ ['/'] ++ rest0 := by
    intro e
    have := congrArg List.length e
    simp at this
  have hget : GoMap.get [(K0, v0)] (K0 ++ ['/'] ++ rest0) = none := by
    simp [GoMap.get, hne]
  generalize hI : K0 ++ ['/'] ++ rest0 = I at h hget
  cases h with
  | exact hg => rw [hget] at hg; exact Option.noConfusion hg
  | @nested K v rest _ hK hIK =>
    have hKK : K0 = K ∧ v0 = v := by
      by_cases e : K0 = K
      · simp only [GoMap.get, e, if_true, Option.some.injEq] at hK
        exact ⟨e, hK⟩
      · simp [GoMap.get, e] at hK
    obtain ⟨rfl, rfl⟩ := hKK
    rw [← hI, List.append_assoc, List.append_assoc] at hIK
    have := List.append_cancel_left hIK
    simp only [List.singleton_append, List.cons.injEq, true_and] at this
    rw [this]
  | unchanged _ hno =>
    exact absurd hI.symm (hno K0 (by simp [GoMap.keys]) rest0)

theorem digitValue_of_digit (c : Char) (h : 48 ≤ c.toNat ∧ c.toNat ≤ 57) :
    digitValue c = some (c.toNat - 48) := by
  simp [digitValue, h]

theorem parseDigits_decimal (s : Str) (h : ∀ c ∈ s, 48 ≤ c.toNat ∧ c.toNat ≤ 57) :
    ∀ acc, parseDigits s acc = some (s.foldl (fun acc c => 10 * acc + (c.toNat - 48)) acc) := by
  induction s with
  | nil => intro acc; rfl
  | cons c t ih =>
    intro acc
    simp only [parseDigits, digitValue_of_digit c (h c (List.mem_cons_self _ _)),
      List.foldl_cons]
    exact ih (fun x hx => h x (List.mem_cons_of_mem _ hx)) _

/-- On a string of decimal digits `strconv.Atoi` gives the number it denotes when
that fits an `int`, and the range error otherwise. -/
theorem Atoi_decimal (s : Str) (h : IsDecimal s) :
    Atoi s = if decimalValue s < 2 ^ (intSize - 1) then some (decimalValue s : Int) else none := by
  obtain ⟨hne, hd⟩ := h
  cases s with
  | nil => exact absurd rfl hne
  | cons c t =>
    have hc := hd c (List.mem_cons_self _ _)
    have h1 : c ≠ '-' := by
      intro e; rw [e] at hc; exact absurd hc (by decide)
    have h2 : c ≠ '+' := by
      intro e; rw [e] at hc; exact absurd hc (by decide)
    unfold Atoi
    split
    · rename_i heq; exact absurd heq (by simp)
    · rename_i t' heq
      exact absurd (List.cons.inj heq).1 h1
    · rename_i t' heq
      exact absurd (List.cons.inj heq).1 h2
    · rename_i c' t' _ _ heq
      rw [← heq, parseDigits_decimal (c :: t) hd 0]
      rfl

theorem Contains_append_of_not_mem (s0 : Char) (sep p t : Str) (hp : s0 ∉ p) :
    Contains (p ++ t) (s0 :: sep) = Contains t (s0 :: sep) := by
  induction p with
  | nil => rfl
  | cons x p ih =>
    have hx : x ≠ s0 := fun e => hp (by simp [e])
    have hp' : s0 ∉ p := fun e => hp (List.mem_cons_of_mem _ e)
    rw [List.cons_append]
    simp only [Contains, HasPrefix_cons_ne x s0 _ sep hx, Bool.false_or]
    exact ih hp'

theorem Contains_of_not_mem (s0 : Char) (sep p : Str) (hp : s0 ∉ p) :
    Contains p (s0 :: sep) = false := by
  have := Contains_append_of_not_mem s0 sep p [] hp
  simpa [Contains] using this

theorem Contains_self_append (s0 : Char) (sep z : Str) :
    Contains (s0 :: sep ++ z) (s0 :: sep) = true := by
  have : HasPrefix (s0 :: (sep ++ z)) (s0 :: sep) = true := HasPrefix_append (s0 :: sep) z
  simp [Contains, this]

/-- The first part of a split is what stands before the first separator, when the
first character of the separator does not occur in it. -/
theorem splitGo_head (s0 : Char) (sep d z : Str) (hd : s0 ∉ d) :
    ∃ ps, splitGo (s0 :: sep) 0 (d ++ (s0 :: sep) ++ z) = d :: ps := by
  induction d with
  | nil =>
    have : HasPrefix (s0 :: (sep ++ z)) (s0 :: sep) = true := HasPrefix_append (s0 :: sep) z
    exact ⟨splitGo (s0 :: sep) ((s0 :: sep).length - 1) (sep ++ z),
      splitGo_cons_of_match (s0 :: sep) s0 (sep ++ z) this⟩
  | cons x d ih =>
    have hx : x ≠ s0 := fun e => hd (by simp [e])
    obtain ⟨ps, hps⟩ := ih (fun e => hd (List.mem_cons_of_mem _ e))
    exact ⟨ps, splitGo_cons_of_not _ _ _ (HasPrefix_cons_ne x s0 _ sep hx) _ _ hps⟩

theorem Split_head (s0 : Char) (sep d z : Str) (hd : s0 ∉ d) :
    (Split (d ++ (s0 :: sep) ++ z) (s0 :: sep)).headD [] = d := by
  obtain ⟨ps, hps⟩ := splitGo_head s0 sep d z hd
  unfold Split
  rw [if_neg (by simp), hps]
  rfl

theorem digit_not_mem {s : Str} (h : ∀ c ∈ s, 48 ≤ c.toNat ∧ c.toNat ≤ 57) (x : Char)
    (hx : x.toNat < 48 ∨ 57 < x.toNat) : x ∉ s := by
  intro hm
  have := h x hm
  omega

/-- The loop over `rc` and `beta` removes a pre-release suffix from a string of
digits. -/
theorem dropPreRelease_append (d suffix : Str) (hd : ∀ c ∈ d, 48 ≤ c.toNat ∧ c.toNat ≤ 57)
    (hs : PreRelease suffix) : dropPreRelease (d ++ suffix) = d := by
  have hr : 'r' ∉ d := digit_not_mem hd 'r' (by decide)
  have hb : 'b' ∉ d := digit_not_mem hd 'b' (by decide)
  cases hs with
  | release =>
    have h1 : Contains d "rc".toList = false := Contains_of_not_mem 'r' ['c'] d hr
    have h2 : Contains d "beta".toList = false := Contains_of_not_mem 'b' ['e', 't', 'a'] d hb
    unfold dropPreRelease
    rw [List.append_nil, if_neg (by rw [h1]; simp), if_neg (by rw [h2]; simp)]
  | rc z _ =>
    have h1 : Contains (d ++ ("rc".toList ++ z)) "rc".toList = true := by
      rw [show "rc".toList = 'r' :: ['c'] from rfl, Contains_append_of_not_mem 'r' ['c'] d _ hr]
      exact Contains_self_append 'r' ['c'] z
    have h2 : (Split (d ++ ("rc".toList ++ z)) "rc".toList).headD [] = d := by
      have := Split_head 'r' ['c'] d z hr
      rw [List.append_assoc] at this
      exact this
    unfold dropPreRelease
    rw [if_pos h1, h2]
  | beta z _ hz =>
    have h1 : Contains (d ++ ("beta".toList ++ z)) "rc".toList = false := by
      rw [show "rc".toList = 'r' :: ['c'] from rfl, Contains_append_of_not_mem 'r' ['c'] d _ hr,
        Contains_append_of_not_mem 'r' ['c'] "beta".toList z (by decide)]
      exact hz
    have h2 : Contains (d ++ ("beta".toList ++ z)) "beta".toList = true := by
      rw [show "beta".toList = 'b' :: ['e', 't', 'a'] from rfl,
        Contains_append_of_not_mem 'b' ['e', 't', 'a'] d _ hb]
      exact Contains_self_append 'b' ['e', 't', 'a'] z
    have h3 : (Split (d ++ ("beta".toList ++ z)) "beta".toList).headD [] = d := by
      have := Split_head 'b' ['e', 't', 'a'] d z hb
      rw [List.append_assoc] at this
      exact this
    unfold dropPreRelease
    rw [if_neg (by rw [h1]; simp), if_pos h2, h3]

theorem PreRelease_no_dot {suffix : Str} (hs : PreRelease suffix) : '.' ∉ suffix := by
  cases hs with
  | release => simp
  | rc z hz =>
    intro h
    rcases List.mem_append.1 h with h | h
    · exact absurd h (by decide)
    · exact hz h
  | beta z hz _ =>
    intro h
    rcases List.mem_append.1 h with h | h
    · exact absurd h (by decide)
    · exact hz h

theorem Join_cons_of_ne_nil (a : Str) (l : List Str) (sep : Str) (h : l ≠ []) :
    Join (a :: l) sep = a ++ sep ++ Join l sep := by
  cases l with
  | nil => exact absurd rfl h
  | cons b t => rfl

theorem setLast_ne_nil (f : Str → Str) (parts : List Str) (h : parts ≠ []) :
    setLast f parts ≠ [] := by
  cases parts with
  | nil => exact absurd rfl h
  | cons a t => cases t <;> simp [setLast]

theorem Join_append_suffix (parts : List Str) (sep suffix : Str) (hne : parts ≠ []) :
    Join parts sep ++ suffix = Join (setLast (fun a => a ++ suffix) parts) sep := by
  induction parts with
  | nil => exact absurd rfl hne
  | cons a t ih =>
    cases t with
    | nil => simp [Join, setLast]
    | cons b t =>
      have := ih (by simp)
      have hs : setLast (fun a => a ++ suffix) (a :: b :: t)
          = a :: setLast (fun a => a ++ suffix) (b :: t) := rfl
      rw [hs, Join_cons_of_ne_nil _ _ _ (setLast_ne_nil _ _ (by simp)), ← this,
        Join_cons_of_ne_nil _ _ _ (by simp)]
      simp only [List.append_assoc]

theorem setLast_mem {f : Str → Str} {parts : List Str} {q : Str}
    (hq : q ∈ setLast f parts) : ∃ a ∈ parts, q = a ∨ q = f a := by
  induction parts with
  | nil => simp [setLast] at hq
  | cons a t ih =>
    cases t with
    | nil =>
      simp only [setLast, List.mem_singleton] at hq
      exact ⟨a, by simp, Or.inr hq⟩
    | cons b t =>
      simp only [setLast, List.mem_cons] at hq
      rcases hq with rfl | hq
      · exact ⟨q, by simp, Or.inl rfl⟩
      · obtain ⟨x, hx, hxq⟩ := ih (by simpa [List.mem_cons] using hq)
        exact ⟨x, List.mem_cons_of_mem _ hx, hxq⟩

theorem setLast_setLast_id (f g : Str → Str) (parts : List Str)
    (h : ∀ a ∈ parts, f (g a) = a) : setLast f (setLast g parts) = parts := by
  induction parts with
  | nil => rfl
  | cons a t ih =>
    cases t with
    | nil => simp [setLast, h a]
    | cons b t =>
      have := ih (fun x hx => h x (List.mem_cons_of_mem _ hx))
      cases hs : setLast g (b :: t) with
      | nil => rw [hs] at this; simp [setLast] at this
      | cons y ys =>
        rw [hs] at this
        simp only [setLast, hs]
        rw [this]

/-- The comparison loop on components that all parse: the numeric order of the
common components. -/
theorem compareParts_decimal (hs : List Str)
    (hdec : ∀ c ∈ hs, IsDecimal c ∧ decimalValue c < 2 ^ (intSize - 1)) :
    ∀ (rs : List Str), (∀ c ∈ rs, IsDecimal c ∧ decimalValue c < 2 ^ (intSize - 1)) →
      compareParts (hs.take (min hs.length rs.length)) (rs.take (min hs.length rs.length))
        = .value (versionLess (hs.map decimalValue) (rs.map decimalValue)) := by
  induction hs with
  | nil => intro rs _; simp [compareParts, versionLess]
  | cons h hs ih =>
    intro rs rdec
    cases rs with
    | nil => simp [compareParts, versionLess]
    | cons r rs =>
      have hh := hdec h (List.mem_cons_self _ _)
      have hr := rdec r (List.mem_cons_self _ _)
      have ah : Atoi h = some (decimalValue h : Int) := by
        rw [Atoi_decimal h hh.1, if_pos hh.2]
      have ar : Atoi r = some (decimalValue r : Int) := by
        rw [Atoi_decimal r hr.1, if_pos hr.2]
      have hmin : min (h :: hs).length (r :: rs).length = min hs.length rs.length + 1 := by
        simp [Nat.succ_min_succ]
      rw [hmin]
      simp only [List.take_succ_cons, compareParts, ah, ar, List.map_cons, versionLess,
        Nat.cast_lt, gt_iff_lt]
      rw [ih (fun c hc => hdec c (List.mem_cons_of_mem _ hc)) rs
        (fun c hc => rdec c (List.mem_cons_of_mem _ hc))]
      by_cases h1 : decimalValue h < decimalValue r
      · simp [h1]
      · by_cases h2 : decimalValue r < decimalValue h
        · simp [h1, h2]
        · simp [h1, h2]

/-! ## The claims -/

/-- C1 (defect in the code). The root of `shadowEnv` lists `r` (hash `QmR`) as a
direct dependency; `t` (hash `QmT`) is not a direct dependency; both declare the
external identifier `host.example/x/lib`.  Because `r` is first met below `a`,
after `t` was entered below `b`, and is then skipped in the root's own list as
already seen, the install mapping sends the identifier to the transitive
`dms3gx/dms3fs/QmT/lib-t` and not to the root dependency's
`dms3gx/dms3fs/QmR/lib-r`. -/
theorem buildRewriteMapping_shadowed_root_dep :
    (∃ d ∈ shadowRoot.Dependencies, d.Hash = str "QmR") ∧
    (∀ d ∈ shadowRoot.Dependencies, d.Hash ≠ str "QmT") ∧
    loadHash shadowEnv (str "QmR") = some (mkPackage "lib-r" "host.example/x/lib" []) ∧
    loadHash shadowEnv (str "QmT") = some (mkPackage "lib-t" "host.example/x/lib" []) ∧
    buildRewriteMapping shadowEnv shadowRoot [] false =
      .ok { seen := [str "QmA", str "QmB", str "QmT", str "QmR"]
            m := [(str "host.example/x/lib", str "dms3gx/dms3fs/QmT/lib-t")]
            loaded := [str "QmA", str "QmB", str "QmT", str "QmR"] } ∧
    str "dms3gx/dms3fs/QmT/lib-t"
      ≠ internalId (str "QmR") (mkPackage "lib-r" "host.example/x/lib" []) := by
  refine ⟨by decide, by decide, by decide, by decide, by decide, by decide⟩

/-- C2. When every hash reachable from the root resolves, one call of
`buildRewriteMapping` succeeds, and the log of its `loadDep` calls has no
repetition and holds exactly the reachable hashes: each reachable hash is loaded
exactly once, however many paths lead to it, and no other hash is loaded. -/
theorem buildRewriteMapping_loads_reachable_once (env : Env) (pkg : Package) (m : GoMap)
    (undo : Bool) (hres : ∀ h, Reachable env pkg h → loadHash env h ≠ none) :
    ∃ s, buildRewriteMapping env pkg m undo = .ok s ∧ s.loaded.Nodup ∧
      ∀ h, h ∈ s.loaded ↔ Reachable env pkg h := by
  obtain ⟨s, new, hb, hg, hnew⟩ := build_ok_of_resolves env pkg m undo hres
  have hl : s.loaded = new := by
    rw [hg.loaded_eq]
    simp [initState]
  refine ⟨s, hb, ?_, ?_⟩
  · rw [hl]; exact hg.nodup
  · rw [hl]; exact hnew

/-- C2 at the diamond: `c` is reached through `a` and through `b`, every reachable
hash resolves, and each is loaded once. -/
theorem buildRewriteMapping_loads_reachable_once_witness :
    (∀ h, Reachable diamondEnv diamondRoot h → loadHash diamondEnv h ≠ none) ∧
    ∃ s, buildRewriteMapping diamondEnv diamondRoot [] false = .ok s ∧ s.loaded.Nodup ∧
      ∀ h, h ∈ s.loaded ↔ Reachable diamondEnv diamondRoot h :=
  ⟨diamond_resolves, buildRewriteMapping_loads_reachable_once diamondEnv diamondRoot [] false
    diamond_resolves⟩

/-- C3. When every reachable hash resolves, the install mapping built from an
empty map has as keys exactly the non-empty external identifiers declared by the
manifests of reachable dependencies, no key twice; each key is sent to
`"dms3gx/dms3fs/" + hash + "/" + name` of some reachable dependency that declares
it; and a manifest without external identifier leaves the map as it is. -/
theorem buildRewriteMapping_install_entries (env : Env) (pkg : Package)
    (hres : ∀ h, Reachable env pkg h → loadHash env h ≠ none) :
    ∃ s, buildRewriteMapping env pkg [] false = .ok s ∧
      (∀ k, k ∈ s.m.keys ↔
        k ≠ [] ∧ ∃ h p, Reachable env pkg h ∧ loadHash env h = some p ∧
          p.Dms3Gx.DvcsImport = k) ∧
      (∀ k ∈ s.m.keys, ∃ h p, Reachable env pkg h ∧ loadHash env h = some p ∧
          p.Dms3Gx.DvcsImport = k ∧
          s.m.get k = some (vendorImportRoot ++ h ++ ['/'] ++ p.Name)) ∧
      s.m.keys.Nodup ∧
      (∀ (dep : Dependency) (p : Package) (m : GoMap) (undo overwrite : Bool),
        p.Dms3Gx.DvcsImport = [] → addRewriteForDep dep p m undo overwrite = m) := by
  obtain ⟨s, new, hb, hg, hnew⟩ := build_ok_of_resolves env pkg [] false hres
  refine ⟨s, hb, ?_, ?_, ?_, ?_⟩
  · intro k
    rw [hg.keys]
    simp only [initState, GoMap.keys, List.map_nil, List.not_mem_nil, false_or, entryOf,
      Bool.false_eq_true, if_false]
    constructor
    · rintro ⟨h, hh, p, hl, hne, rfl⟩
      exact ⟨hne, h, p, (hnew h).1 hh, hl, rfl⟩
    · rintro ⟨hne, h, p, hr, hl, rfl⟩
      exact ⟨h, (hnew h).2 hr, p, hl, hne, rfl⟩
  · intro k hk
    obtain ⟨v, hv⟩ := Option.isSome_iff_exists.1 ((GoMap.get_isSome_iff s.m k).2 hk)
    rcases hg.vals k v hv with h0 | ⟨h, hh, p, hl, _, he⟩
    · simp [initState, GoMap.get] at h0
    · simp only [entryOf, Bool.false_eq_true, if_false, Prod.mk.injEq] at he
      refine ⟨h, p, (hnew h).1 hh, hl, he.1.symm, ?_⟩
      rw [hv, he.2]
      rfl
  · exact hg.keys_nodup (by simp [initState, GoMap.keys])
  · intro dep p m undo overwrite he
    simp [addRewriteForDep, he]

/-- C3 at the diamond: the keys are the identifiers of `a` and `b`; `c`, which
declares none, and the unreachable `z` add nothing. -/
theorem buildRewriteMapping_install_entries_witness :
    (∀ h, Reachable diamondEnv diamondRoot h → loadHash diamondEnv h ≠ none) ∧
    buildRewriteMapping diamondEnv diamondRoot [] false =
      .ok { seen := [str "QmA", str "QmC", str "QmB"]
            m := [(str "host.example/x/a", str "dms3gx/dms3fs/QmA/a"),
                  (str "host.example/x/b", str "dms3gx/dms3fs/QmB/b")]
            loaded := [str "QmA", str "QmC", str "QmB"] } ∧
    ∃ s, buildRewriteMapping diamondEnv diamondRoot [] false = .ok s ∧
      (∀ k, k ∈ s.m.keys ↔
        k ≠ [] ∧ ∃ h p, Reachable diamondEnv diamondRoot h ∧ loadHash diamondEnv h = some p ∧
          p.Dms3Gx.DvcsImport = k) ∧
      (∀ k ∈ s.m.keys, ∃ h p, Reachable diamondEnv diamondRoot h ∧
          loadHash diamondEnv h = some p ∧ p.Dms3Gx.DvcsImport = k ∧
          s.m.get k = some (vendorImportRoot ++ h ++ ['/'] ++ p.Name)) ∧
      s.m.keys.Nodup ∧
      (∀ (dep : Dependency) (p : Package) (m : GoMap) (undo overwrite : Bool),
        p.Dms3Gx.DvcsImport = [] → addRewriteForDep dep p m undo overwrite = m) :=
  ⟨diamond_resolves, by decide,
    buildRewriteMapping_install_entries diamondEnv diamondRoot diamond_resolves⟩

/-- C4 as stated fails: in the map `a -> x`, `a/b -> y`, visited in this order, both
keys are followed by `/` at the head of `a/b/c`, the longest of them is `a/b`,
and the lookup returns `x/b/c`, built from the shorter key `a`, not `y/c`. -/
theorem rwm_not_longest_key :
    GoMap.get [(str "a", str "x"), (str "a/b", str "y")] (str "a/b/c") = none ∧
    str "a/b/c" = str "a" ++ ['/'] ++ str "b/c" ∧
    str "a/b/c" = str "a/b" ++ ['/'] ++ str "c" ∧
    (∀ K ∈ GoMap.keys [(str "a", str "x"), (str "a/b", str "y")],
      HasPrefix (str "a/b/c") (K ++ ['/']) = true → K.length ≤ (str "a/b").length) ∧
    GoMap.get [(str "a", str "x"), (str "a/b", str "y")] (str "a/b") = some (str "y") ∧
    (rwm [(str "a", str "x"), (str "a/b", str "y")] (str "a/b/c")).1 = str "x/b/c" ∧
    (rwm [(str "a", str "x"), (str "a/b", str "y")] (str "a/b/c")).1
      ≠ str "y" ++ ['/'] ++ str "c" := by
  refine ⟨by decide, by decide, by decide, by decide, by decide, by decide, by decide⟩

/-- C4, amended. For an identifier `I` that is not a key, when some key `K` satisfies
`I = K + "/" + remainder`, the lookup uses the first such key in the iteration
order of the map (an order Go leaves open), whatever its length: it returns
`mapping[K] + "/" + remainder` for that key. -/
theorem rwm_uses_first_matching_key (m : GoMap) (I : Str) (hI : m.get I = none)
    (hex : ∃ K ∈ m.keys, ∃ rest, I = K ++ ['/'] ++ rest) :
    ∃ K v rest pre post, m = pre ++ (K, v) :: post ∧
      (∀ e ∈ pre, ∀ r, I ≠ e.1 ++ ['/'] ++ r) ∧
      I = K ++ ['/'] ++ rest ∧ m.get K = some v ∧
      (rwm m I).1 = v ++ ['/'] ++ rest := by
  cases hf : rangeFind I m with
  | none =>
    obtain ⟨K, hK, rest, hr⟩ := hex
    have := (rangeFind_none_iff I m).1 hf K hK
    rw [hr, HasPrefix_append] at this
    exact Bool.noConfusion this
  | some e =>
    obtain ⟨K, v⟩ := e
    obtain ⟨hp, pre, post, hm, hpre⟩ := rangeFind_some hf
    obtain ⟨rest, hrest⟩ := (HasPrefix_iff _ _).1 hp
    refine ⟨K, v, rest, pre, post, hm, ?_, hrest, rangeFind_get hf, ?_⟩
    · intro e he r hr
      have := hpre e he
      rw [hr, HasPrefix_append] at this
      exact Bool.noConfusion this
    · rw [rwm_of_rangeFind hI hf]
      show Replace1 I K v = _
      conv_lhs => rw [hrest, List.append_assoc]
      rw [Replace1_append, List.append_assoc]

/-- C4, amended, on the map `a/b -> y`, `a -> x` and the identifier `a/b/c`. -/
theorem rwm_uses_first_matching_key_witness :
    GoMap.get [(str "a/b", str "y"), (str "a", str "x")] (str "a/b/c") = none ∧
    ∃ K v rest pre post, [(str "a/b", str "y"), (str "a", str "x")] = pre ++ (K, v) :: post ∧
      (∀ e ∈ pre, ∀ r, str "a/b/c" ≠ e.1 ++ ['/'] ++ r) ∧
      str "a/b/c" = K ++ ['/'] ++ rest ∧
      GoMap.get [(str "a/b", str "y"), (str "a", str "x")] K = some v ∧
      (rwm [(str "a/b", str "y"), (str "a", str "x")] (str "a/b/c")).1 = v ++ ['/'] ++ rest :=
  ⟨by decide, rwm_uses_first_matching_key _ _ (by decide)
    ⟨str "a", by decide, str "b/c", by decide⟩⟩

/-- C5. For an identifier `I` that is not a key, if exactly one key `K` satisfies
`I = K + "/" + rest`, the lookup returns `mapping[K] + "/" + rest`, and afterwards
the mapping holds the entry `I -> ` that result, added after the earlier
entries, which are all unchanged. -/
theorem rwm_unique_match (m : GoMap) (I K rest v : Str) (hI : m.get I = none)
    (hK : m.get K = some v) (hIK : I = K ++ ['/'] ++ rest)
    (huniq : ∀ K' ∈ m.keys, ∀ rest', I = K' ++ ['/'] ++ rest' → K' = K) :
    (rwm m I).1 = v ++ ['/'] ++ rest ∧
    (rwm m I).2.get I = some (v ++ ['/'] ++ rest) ∧
    (∀ k, k ≠ I → (rwm m I).2.get k = m.get k) ∧
    (rwm m I).2 = m ++ [(I, v ++ ['/'] ++ rest)] := by
  have hKmem : K ∈ m.keys := by rw [← GoMap.get_isSome_iff, hK]; rfl
  cases hf : rangeFind I m with
  | none =>
    have := (rangeFind_none_iff I m).1 hf K hKmem
    rw [hIK, HasPrefix_append] at this
    exact Bool.noConfusion this
  | some e =>
    obtain ⟨K', v'⟩ := e
    obtain ⟨rest', hrest'⟩ := (HasPrefix_iff _ _).1 (rangeFind_some hf).1
    have hKK : K' = K := huniq K' (rangeFind_mem_keys hf) rest' hrest'
    subst hKK
    have hv : v' = v := by
      have := rangeFind_get hf
      rw [hK] at this
      exact (Option.some.inj this).symm
    subst hv
    have hrep : Replace1 I K' v' = v' ++ ['/'] ++ rest := by
      conv_lhs => rw [hIK, List.append_assoc]
      rw [Replace1_append, List.append_assoc]
    rw [rwm_of_rangeFind hI hf, hrep]
    refine ⟨rfl, ?_, ?_, rfl⟩
    · show GoMap.get (m ++ [(I, v' ++ ['/'] ++ rest)]) I = _
      rw [GoMap.get_append_single _ _ _ _ hI]
      simp
    · intro k hk
      show GoMap.get (m ++ [(I, v' ++ ['/'] ++ rest)]) k = _
      rw [GoMap.get_append_single _ _ _ _ hI]
      simp [Ne.symm hk]

/-- C5 on the example of the specification: `host.example/x/y/sub` becomes
`vendor/h1/y/sub`, and the pairing is added to the map. -/
theorem rwm_unique_match_witness :
    (rwm [(str "host.example/x/y", str "vendor/h1/y")] (str "host.example/x/y/sub")).1
      = str "vendor/h1/y/sub" ∧
    (rwm [(str "host.example/x/y", str "vendor/h1/y")] (str "host.example/x/y/sub")).2
      = [(str "host.example/x/y", str "vendor/h1/y"),
         (str "host.example/x/y/sub", str "vendor/h1/y/sub")] := by
  have h := rwm_unique_match [(str "host.example/x/y", str "vendor/h1/y")]
    (str "host.example/x/y/sub") (str "host.example/x/y") (str "sub") (str "vendor/h1/y")
    (by decide) (by decide) (by decide) (by
      intro K' hK' rest' _
      simpa [GoMap.keys] using hK')
  exact ⟨h.1, h.2.2.2⟩

/-- C6. For an identifier `I` that is not a key and that no key followed by `/`
begins (a key that is a bare string prefix of `I` does not count), the lookup
returns `I` unchanged, and afterwards the mapping holds `I -> I`, added after the
earlier entries, which are all unchanged. -/
theorem rwm_no_match (m : GoMap) (I : Str) (hI : m.get I = none)
    (hno : ∀ K ∈ m.keys, ∀ rest, I ≠ K ++ ['/'] ++ rest) :
    (rwm m I).1 = I ∧
    (rwm m I).2.get I = some I ∧
    (∀ k, k ≠ I → (rwm m I).2.get k = m.get k) ∧
    (rwm m I).2 = m ++ [(I, I)] := by
  have hf : rangeFind I m = none := by
    rw [rangeFind_none_iff]
    intro k hk
    cases hp : HasPrefix I (k ++ ['/']) with
    | false => rfl
    | true =>
      obtain ⟨rest, hrest⟩ := (HasPrefix_iff _ _).1 hp
      exact absurd hrest (hno k hk rest)
  rw [rwm_of_none hI hf]
  refine ⟨rfl, ?_, ?_, rfl⟩
  · show GoMap.get (m ++ [(I, I)]) I = _
    rw [GoMap.get_append_single _ _ _ _ hI]
    simp
  · intro k hk
    show GoMap.get (m ++ [(I, I)]) k = _
    rw [GoMap.get_append_single _ _ _ _ hI]
    simp [Ne.symm hk]

/-- C6 on the example of the specification: the key `host.example/x/y` is a bare
string prefix of `host.example/x/yy`, which is left unchanged and memoized. -/
theorem rwm_no_match_witness :
    (str "host.example/x/y" <+: str "host.example/x/yy") ∧
    (rwm [(str "host.example/x/y", str "vendor/h1/y")] (str "host.example/x/yy")).1
      = str "host.example/x/yy" ∧
    (rwm [(str "host.example/x/y", str "vendor/h1/y")] (str "host.example/x/yy")).2
      = [(str "host.example/x/y", str "vendor/h1/y"),
         (str "host.example/x/yy", str "host.example/x/yy")] := by
  have h := rwm_no_match [(str "host.example/x/y", str "vendor/h1/y")]
    (str "host.example/x/yy") (by decide) (by
      intro K hK rest hr
      have hK' : K = str "host.example/x/y" := by simpa [GoMap.keys] using hK
      subst hK'
      have : HasPrefix (str "host.example/x/yy") (str "host.example/x/y" ++ ['/']) = true :=
        (HasPrefix_iff _ _).2 ⟨rest, by rw [hr]⟩
      exact absurd this (by decide))
  exact ⟨⟨str "y", by decide⟩, h.1, h.2.2.2⟩

/-- C7 as stated fails: in the map `a -> b`, `b -> c` the lookup of `a` returns `b`,
and the lookup of that result returns `c`. -/
theorem rwm_not_idempotent :
    (rwm [(str "a", str "b"), (str "b", str "c")] (str "a")).1 = str "b" ∧
    (rwm (rwm [(str "a", str "b"), (str "b", str "c")] (str "a")).2
        (rwm [(str "a", str "b"), (str "b", str "c")] (str "a")).1).1 = str "c" ∧
    (rwm (rwm [(str "a", str "b"), (str "b", str "c")] (str "a")).2
        (rwm [(str "a", str "b"), (str "b", str "c")] (str "a")).1).1
      ≠ (rwm [(str "a", str "b"), (str "b", str "c")] (str "a")).1 := by
  refine ⟨by decide, by decide, by decide⟩

/-- C7, amended. The lookup is idempotent on every mapping that keeps sources and
targets apart (among the entries that change their identifier, no key is equal
to a value, nested under one, or above one): the lookup of the result of a first
lookup, in the mapping as the first lookup left it and in whatever order its
entries are visited, returns that result again; and that mapping is again a map
that keeps sources and targets apart, so the same holds for every later lookup
of a pass. -/
theorem rwm_idempotent_of_separated (m : GoMap) (hnd : m.keys.Nodup) (hsep : Separated m)
    (I : Str) :
    (∀ m2 : GoMap, (∀ e, e ∈ m2 ↔ e ∈ (rwm m I).2) →
      (rwm m2 (rwm m I).1).1 = (rwm m I).1) ∧
    (rwm m I).2.keys.Nodup ∧ Separated (rwm m I).2 := by
  cases hg : m.get I with
  | some r =>
    rw [rwm_of_get hg]
    refine ⟨?_, hnd, hsep⟩
    intro m2 hm2
    by_cases hIr : I = r
    · subst hIr
      refine rwm_fixed m2 I ?_ (Or.inl ⟨I, (hm2 _).2 (GoMap.mem_of_get hg)⟩)
      intro v' hv'
      exact GoMap.eq_of_mem_nodup hnd (GoMap.mem_of_get hg) ((hm2 _).1 hv')
    · obtain ⟨t1, t2⟩ := separated_target m hsep I r r (GoMap.mem_of_get hg) hIr
        (HasPrefix_refl _)
      refine rwm_fixed m2 r ?_ (Or.inr ?_)
      · intro v' hv'; exact t1 r v' ((hm2 _).1 hv') rfl
      · intro k' v' hkv' hp; exact t2 k' v' ((hm2 _).1 hkv') hp
  | none =>
    have hInot : ∀ v', (I, v') ∉ m := by
      intro v' hv'
      exact (GoMap.get_eq_none_iff m I).1 hg (by simpa [GoMap.keys] using ⟨v', hv'⟩)
    have hnd3 : ∀ x, (GoMap.keys (m ++ [(I, x)])).Nodup := by
      intro x
      rw [← GoMap.set_of_not_mem m I x ((GoMap.get_eq_none_iff m I).1 hg)]
      exact GoMap.nodup_keys_set m I x hnd
    -- the result is `I` itself, memoized as an identity entry
    have hident : ∀ m2 : GoMap, (∀ e, e ∈ m2 ↔ e ∈ m ++ [(I, I)]) → (rwm m2 I).1 = I := by
      intro m2 hm2
      refine rwm_fixed m2 I ?_ (Or.inl ⟨I, (hm2 _).2 (by simp)⟩)
      intro v' hv'
      rcases List.mem_append.1 ((hm2 _).1 hv') with h | h
      · exact absurd h (hInot v')
      · simpa using h
    cases hf : rangeFind I m with
    | none =>
      rw [rwm_of_none hg hf]
      exact ⟨hident, hnd3 I, Separated_append m hsep I I (Or.inl rfl)⟩
    | some x =>
      obtain ⟨k, v⟩ := x
      rw [rwm_of_rangeFind hg hf]
      obtain ⟨rest, hI, hrep⟩ := Replace1_of_rangeFind hf
      have hIk : HasPrefix I (k ++ ['/']) = true := (rangeFind_some hf).1
      have hrv : HasPrefix (Replace1 I k v ++ ['/']) (v ++ ['/']) = true := by
        rw [hrep, List.append_assoc (v ++ ['/'])]
        exact HasPrefix_append _ _
      by_cases hkv : k = v
      · subst hkv
        rw [Replace1_self]
        exact ⟨hident, hnd3 I, Separated_append m hsep I I (Or.inl rfl)⟩
      · refine ⟨?_, hnd3 _, Separated_append m hsep I _ (Or.inr ⟨k, v, rangeFind_mem hf, hkv,
          HasPrefix_trans hIk (HasPrefix_append I ['/']), hrv⟩)⟩
        obtain ⟨t1, t2⟩ := separated_target m hsep k v _ (rangeFind_mem hf) hkv hrv
        intro m2 hm2
        refine rwm_fixed m2 _ ?_ (Or.inr ?_)
        · intro v' hv'
          rcases List.mem_append.1 ((hm2 _).1 hv') with h | h
          · exact t1 _ v' h rfl
          · simp only [List.mem_singleton, Prod.mk.injEq] at h
            exact h.2
        · intro k' v' hkv' hp
          rcases List.mem_append.1 ((hm2 _).1 hkv') with h | h
          · exact t2 k' v' h hp
          · simp only [List.mem_singleton, Prod.mk.injEq] at h
            rw [h.1] at hp
            -- then `k`, which lies above `I`, would lie above the result too
            have hk2 : HasPrefix (Replace1 I k v) (k ++ ['/']) = true :=
              HasPrefix_trans (HasPrefix_trans hIk (HasPrefix_append _ ['/'])) hp
            exact absurd (t2 k v (rangeFind_mem hf) hk2) hkv

/-- C7, amended, on the example of the specification: `host.example/x/y/sub` is
rewritten to `vendor/h1/y/sub`, which a second lookup leaves as it is. -/
theorem rwm_idempotent_of_separated_witness :
    (GoMap.keys [(str "host.example/x/y", str "vendor/h1/y")]).Nodup ∧
    Separated [(str "host.example/x/y", str "vendor/h1/y")] ∧
    (rwm [(str "host.example/x/y", str "vendor/h1/y")] (str "host.example/x/y/sub")).1
      = str "vendor/h1/y/sub" ∧
    (rwm (rwm [(str "host.example/x/y", str "vendor/h1/y")] (str "host.example/x/y/sub")).2
        (rwm [(str "host.example/x/y", str "vendor/h1/y")] (str "host.example/x/y/sub")).1).1
      = (rwm [(str "host.example/x/y", str "vendor/h1/y")] (str "host.example/x/y/sub")).1 :=
  ⟨by decide, by unfold Separated; decide, by decide,
    (rwm_idempotent_of_separated [(str "host.example/x/y", str "vendor/h1/y")]
      (by decide) (by unfold Separated; decide) (str "host.example/x/y/sub")).1 _
      (fun _ => Iff.rfl)⟩

/-- C8. Round trip for a root with a single dependency (hash `dep.Hash`, manifest
`pkg` with a non-empty external identifier `D`, no dependencies of its own):
both directions of `buildRewriteMapping` succeed, and an identifier `I` that is `D`
or `D + "/" + rest`, rewritten with the install mapping and then with the undo
mapping, is `I` again. -/
theorem install_then_undo_roundtrip (env : Env) (root : Package) (dep : Dependency)
    (pkg : Package) (I rest : Str)
    (hroot : root.Dependencies = [dep]) (hload : loadDep env dep = some pkg)
    (hleaf : pkg.Dependencies = []) (hD : pkg.Dms3Gx.DvcsImport ≠ [])
    (hI : I = pkg.Dms3Gx.DvcsImport ∨ I = pkg.Dms3Gx.DvcsImport ++ ['/'] ++ rest) :
    ∃ si su, buildRewriteMapping env root [] false = .ok si ∧
      buildRewriteMapping env root [] true = .ok su ∧
      (rwm su.m (rwm si.m I).1).1 = I := by
  refine ⟨_, _, build_single env root dep pkg false hroot hload hleaf hD,
    build_single env root dep pkg true hroot hload hleaf hD, ?_⟩
  simp only [entryOf, Bool.false_eq_true, if_false, if_true]
  rcases hI with rfl | rfl
  · rw [rwm_single_exact, rwm_single_exact]
  · rw [rwm_single_nested, rwm_single_nested]

/-- C8 with the dependency `a` of `brokenEnv` as the only dependency, on the
identifier `host.example/x/a/sub`. -/
theorem install_then_undo_roundtrip_witness :
    (rwm [(str "host.example/x/a", str "dms3gx/dms3fs/QmA/a")] (str "host.example/x/a/sub")).1
      = str "dms3gx/dms3fs/QmA/a/sub" ∧
    ∃ si su, buildRewriteMapping brokenEnv (mkPackage "root" "" [("a", "QmA")]) [] false = .ok si ∧
      buildRewriteMapping brokenEnv (mkPackage "root" "" [("a", "QmA")]) [] true = .ok su ∧
      (rwm su.m (rwm si.m (str "host.example/x/a/sub")).1).1 = str "host.example/x/a/sub" :=
  ⟨by decide, install_then_undo_roundtrip brokenEnv (mkPackage "root" "" [("a", "QmA")])
    { Name := str "a", Hash := str "QmA" } (mkPackage "a" "host.example/x/a" [])
    (str "host.example/x/a/sub") (str "sub") (by decide) (by decide) (by decide) (by decide)
    (Or.inr (by decide))⟩

/-- C9. `buildRewriteMapping` returns its not-found error exactly when some hash
reachable from the root (through manifests that resolve) is found neither in the
local vendoring directory nor in the global one; and when it returns that error,
`fullRewrite` returns the failure and leaves every file as it was. -/
theorem buildRewriteMapping_error_iff_unresolved (env : Env) (pkg : Package) (m : GoMap)
    (undo : Bool) (tree : Tree) :
    ((∃ d p s, buildRewriteMapping env pkg m undo = .err d p s) ↔
      ∃ h, Reachable env pkg h ∧ FindPackageInDir env.pkgdir h = none ∧
        FindPackageInDir env.globalPath h = none) ∧
    (∀ d p s, buildRewriteMapping env pkg [] undo = .err d p s →
      fullRewrite env (some pkg) undo tree = (some (.buildFailed d p), tree)) := by
  constructor
  · rw [build_err_iff]
    have hkey : ∀ h, loadHash env h = none ↔
        (FindPackageInDir env.pkgdir h = none ∧ FindPackageInDir env.globalPath h = none) := by
      intro h
      unfold loadHash loadDep
      cases FindPackageInDir env.pkgdir h <;> cases FindPackageInDir env.globalPath h <;> simp
    constructor
    · rintro ⟨h, hr, hn⟩; exact ⟨h, hr, (hkey h).1 hn⟩
    · rintro ⟨h, hr, hn⟩; exact ⟨h, hr, (hkey h).2 hn⟩
  · intro d p s hb
    simp [fullRewrite, hb]

/-- At the broken root `b` resolves nowhere, the build fails naming it, and
`fullRewrite` hands the files back untouched. -/
theorem brokenRoot_build_fails :
    Reachable brokenEnv brokenRoot (str "QmB") ∧
    (∃ s, buildRewriteMapping brokenEnv brokenRoot [] false = .err (str "b") (str "root") s) ∧
    fullRewrite brokenEnv (some brokenRoot) false
        [{ name := str "main.go", imports := [str "host.example/x/a"] }]
      = (some (.buildFailed (str "b") (str "root")),
         [{ name := str "main.go", imports := [str "host.example/x/a"] }]) := by
  refine ⟨?_, ⟨_, rfl⟩, by decide⟩
  exact Reachable.direct (d := { Name := str "b", Hash := str "QmB" }) (by decide)

/-- C10 as stated fails: at the broken root the build returns its error after `a`
was entered, and the caller's (empty) map now holds the entry of `a`. -/
theorem buildRewriteMapping_partial_map_on_error :
    buildRewriteMapping brokenEnv brokenRoot [] false =
      .err (str "b") (str "root")
        { seen := [str "QmA", str "QmB"]
          m := [(str "host.example/x/a", str "dms3gx/dms3fs/QmA/a")]
          loaded := [str "QmA", str "QmB"] } ∧
    [(str "host.example/x/a", str "dms3gx/dms3fs/QmA/a")] ≠ ([] : GoMap) := by
  refine ⟨by decide, by decide⟩

/-- C10, amended. When `buildRewriteMapping` fails, the map `m` is not restored: its
keys afterwards are the keys it held before together with the source identifiers
of the dependencies loaded before the failure, and each entry is one it held
before or the pairing of such a dependency; `fullRewrite`, which owns the map,
returns the error and rewrites nothing. -/
theorem buildRewriteMapping_map_after_error (env : Env) (pkg : Package) (m : GoMap)
    (undo : Bool) (d p : Str) (s : BuildState)
    (hb : buildRewriteMapping env pkg m undo = .err d p s) :
    (∀ k, k ∈ s.m.keys ↔ k ∈ m.keys ∨
      ∃ h ∈ s.loaded, ∃ q, loadHash env h = some q ∧ q.Dms3Gx.DvcsImport ≠ [] ∧
        k = (entryOf undo h q).1) ∧
    (∀ k v, s.m.get k = some v → m.get k = some v ∨
      ∃ h ∈ s.loaded, ∃ q, loadHash env h = some q ∧ q.Dms3Gx.DvcsImport ≠ [] ∧
        (k, v) = entryOf undo h q) ∧
    (∀ tree, m = [] → fullRewrite env (some pkg) undo tree = (some (.buildFailed d p), tree)) := by
  obtain ⟨new, hg⟩ := (build_grow env pkg m undo).2 d p s hb
  have hl : s.loaded = new := by
    rw [hg.loaded_eq]
    simp [initState]
  refine ⟨?_, ?_, ?_⟩
  · intro k; rw [hl]; exact hg.keys k
  · intro k v hv; rw [hl]; exact hg.vals k v hv
  · intro tree hm
    subst hm
    simp [fullRewrite, hb]

/-- C10, amended, at the broken root: the build fails at `b`, and the map then has
the key contributed by `a`, which was loaded before the failure. -/
theorem buildRewriteMapping_map_after_error_witness :
    buildRewriteMapping brokenEnv brokenRoot [] false =
      .err (str "b") (str "root")
        { seen := [str "QmA", str "QmB"]
          m := [(str "host.example/x/a", str "dms3gx/dms3fs/QmA/a")]
          loaded := [str "QmA", str "QmB"] } ∧
    (∀ k, k ∈ GoMap.keys [(str "host.example/x/a", str "dms3gx/dms3fs/QmA/a")] ↔
      k ∈ GoMap.keys [] ∨
      ∃ h ∈ [str "QmA", str "QmB"], ∃ q, loadHash brokenEnv h = some q ∧
        q.Dms3Gx.DvcsImport ≠ [] ∧ k = (entryOf false h q).1) :=
  ⟨by decide,
    (buildRewriteMapping_map_after_error brokenEnv brokenRoot [] false (str "b") (str "root")
      { seen := [str "QmA", str "QmB"]
        m := [(str "host.example/x/a", str "dms3gx/dms3fs/QmA/a")]
        loaded := [str "QmA", str "QmB"] } (by decide)).1⟩

/-- C11. `buildRewriteMapping` terminates on every finite dependency graph, cycles
included: the run ends with `nil` or with the not-found error, never by using up
its recursion budget, and every larger budget gives the same outcome; in either
case no hash was handed to `loadDep` twice, and `seen` holds exactly the hashes
that were loaded. -/
theorem buildRewriteMapping_terminates (env : Env) (pkg : Package) (m : GoMap) (undo : Bool) :
    ((∃ s, buildRewriteMapping env pkg m undo = .ok s ∧ s.loaded.Nodup ∧ s.seen = s.loaded) ∨
     (∃ d p s, buildRewriteMapping env pkg m undo = .err d p s ∧ s.loaded.Nodup ∧
        s.seen = s.loaded)) ∧
    ∀ n, process env undo (depthBound env + n) pkg true (initState m)
      = buildRewriteMapping env pkg m undo := by
  refine ⟨?_, buildRewriteMapping_fuel_irrelevant env pkg m undo⟩
  cases hb : buildRewriteMapping env pkg m undo with
  | ok s =>
    obtain ⟨new, hg⟩ := (build_grow env pkg m undo).1 s hb
    refine Or.inl ⟨s, rfl, ?_, ?_⟩
    · rw [hg.loaded_eq]; simpa [initState] using hg.nodup
    · rw [hg.loaded_eq, hg.seen_eq]; rfl
  | err d p s =>
    obtain ⟨new, hg⟩ := (build_grow env pkg m undo).2 d p s hb
    refine Or.inr ⟨d, p, s, rfl, ?_, ?_⟩
    · rw [hg.loaded_eq]; simpa [initState] using hg.nodup
    · rw [hg.loaded_eq, hg.seen_eq]; rfl
  | outOfFuel => exact absurd hb (buildRewriteMapping_ne_outOfFuel env pkg m undo)

/-- On the cycle `a -> b -> a` (with `b` listing itself as well) the build ends
after loading `a` and `b` once each. -/
theorem cycle_build_terminates :
    buildRewriteMapping cycleEnv cycleRoot [] false =
      .ok { seen := [str "QmA", str "QmB"]
            m := [(str "host.example/x/a", str "dms3gx/dms3fs/QmA/a"),
                  (str "host.example/x/b", str "dms3gx/dms3fs/QmB/b")]
            loaded := [str "QmA", str "QmB"] } := by
  decide

/-- C12. For a manifest with a non-empty external identifier and every map `m`, with
`(src, tgt)` the pairing of the dependency in the given direction:
`addRewriteForDep` with `overwrite = false` returns `m` itself when `m` has an entry
for `src`, whatever its target; with `overwrite = true`, or when `src` is absent,
the result maps `src` to `tgt` and agrees with `m` on every other key. -/
theorem addRewriteForDep_frame (dep : Dependency) (pkg : Package) (m : GoMap) (undo : Bool)
    (hD : pkg.Dms3Gx.DvcsImport ≠ []) :
    (m.get (entryOf undo dep.Hash pkg).1 ≠ none →
      addRewriteForDep dep pkg m undo false = m) ∧
    (∀ overwrite, overwrite = true ∨ m.get (entryOf undo dep.Hash pkg).1 = none →
      (addRewriteForDep dep pkg m undo overwrite).get (entryOf undo dep.Hash pkg).1
        = some (entryOf undo dep.Hash pkg).2 ∧
      ∀ k, k ≠ (entryOf undo dep.Hash pkg).1 →
        (addRewriteForDep dep pkg m undo overwrite).get k = m.get k) ∧
    entryOf undo dep.Hash pkg =
      (if undo then (vendorImportRoot ++ dep.Hash ++ ['/'] ++ pkg.Name, pkg.Dms3Gx.DvcsImport)
       else (pkg.Dms3Gx.DvcsImport, vendorImportRoot ++ dep.Hash ++ ['/'] ++ pkg.Name)) := by
  refine ⟨?_, ?_, rfl⟩
  · intro hex
    rw [addRewriteForDep_eq]
    have : (m.get (entryOf undo dep.Hash pkg).1).isSome = true := by
      cases h : m.get (entryOf undo dep.Hash pkg).1 with
      | none => exact absurd h hex
      | some v => rfl
    simp [hD, this]
  · intro overwrite how
    have hset : addRewriteForDep dep pkg m undo overwrite
        = m.set (entryOf undo dep.Hash pkg).1 (entryOf undo dep.Hash pkg).2 := by
      rw [addRewriteForDep_eq]
      rcases how with h | h
      · simp [hD, h]
      · simp [hD, h]
    rw [hset]
    refine ⟨?_, ?_⟩
    · rw [GoMap.get_set]; simp
    · intro k hk
      rw [GoMap.get_set]
      simp [Ne.symm hk]

/-- C12 on a map that already sends `host.example/x/lib` elsewhere: without
overwrite the map stays as it is, with overwrite that one key gets the new
target. -/
theorem addRewriteForDep_frame_witness :
    addRewriteForDep { Name := str "r", Hash := str "QmR" }
        (mkPackage "lib-r" "host.example/x/lib" [])
        [(str "host.example/x/lib", str "dms3gx/dms3fs/QmT/lib-t"), (str "k", str "v")]
        false false
      = [(str "host.example/x/lib", str "dms3gx/dms3fs/QmT/lib-t"), (str "k", str "v")] ∧
    addRewriteForDep { Name := str "r", Hash := str "QmR" }
        (mkPackage "lib-r" "host.example/x/lib" [])
        [(str "host.example/x/lib", str "dms3gx/dms3fs/QmT/lib-t"), (str "k", str "v")]
        false true
      = [(str "host.example/x/lib", str "dms3gx/dms3fs/QmR/lib-r"), (str "k", str "v")] :=
  ⟨(addRewriteForDep_frame { Name := str "r", Hash := str "QmR" }
      (mkPackage "lib-r" "host.example/x/lib" [])
      [(str "host.example/x/lib", str "dms3gx/dms3fs/QmT/lib-t"), (str "k", str "v")]
      false (by decide)).1 (by decide), by decide⟩

/-- C13. When every reachable hash resolves and the reachable dependencies that
declare an external identifier have pairwise distinct external identifiers and
pairwise distinct internal identifiers `"dms3gx/dms3fs/" + hash + "/" + name`, both
directions of `buildRewriteMapping` succeed from an empty map and the undo mapping
is the install mapping with key and value swapped: install maps `a` to `b` if
and only if undo maps `b` to `a`. -/
theorem undo_mapping_is_swapped_install (env : Env) (pkg : Package)
    (hres : ∀ h, Reachable env pkg h → loadHash env h ≠ none)
    (hext : ∀ h1 h2 p1 p2, Reachable env pkg h1 → Reachable env pkg h2 →
      loadHash env h1 = some p1 → loadHash env h2 = some p2 →
      p1.Dms3Gx.DvcsImport ≠ [] → p2.Dms3Gx.DvcsImport ≠ [] →
      p1.Dms3Gx.DvcsImport = p2.Dms3Gx.DvcsImport → h1 = h2)
    (hint : ∀ h1 h2 p1 p2, Reachable env pkg h1 → Reachable env pkg h2 →
      loadHash env h1 = some p1 → loadHash env h2 = some p2 →
      p1.Dms3Gx.DvcsImport ≠ [] → p2.Dms3Gx.DvcsImport ≠ [] →
      vendorImportRoot ++ h1 ++ ['/'] ++ p1.Name = vendorImportRoot ++ h2 ++ ['/'] ++ p2.Name →
      h1 = h2) :
    ∃ si su, buildRewriteMapping env pkg [] false = .ok si ∧
      buildRewriteMapping env pkg [] true = .ok su ∧
      ∀ a b, si.m.get a = some b ↔ su.m.get b = some a := by
  obtain ⟨si, hbi, hi⟩ := build_get_iff env pkg false hres hext
  obtain ⟨su, hbu, hu⟩ := build_get_iff env pkg true hres hint
  refine ⟨si, su, hbi, hbu, fun a b => ?_⟩
  rw [hi, hu]
  constructor
  · rintro ⟨h, p, hr, hl, hne, he⟩
    refine ⟨h, p, hr, hl, hne, ?_⟩
    simp only [entryOf, Bool.false_eq_true, if_false, if_true, Prod.mk.injEq] at he ⊢
    exact ⟨he.2, he.1⟩
  · rintro ⟨h, p, hr, hl, hne, he⟩
    refine ⟨h, p, hr, hl, hne, ?_⟩
    simp only [entryOf, Bool.false_eq_true, if_false, if_true, Prod.mk.injEq] at he ⊢
    exact ⟨he.2, he.1⟩

/-- C13 at the diamond: the two mappings are each other's mirror image. -/
theorem undo_mapping_is_swapped_install_witness :
    buildRewriteMapping diamondEnv diamondRoot [] false =
      .ok { seen := [str "QmA", str "QmC", str "QmB"]
            m := [(str "host.example/x/a", str "dms3gx/dms3fs/QmA/a"),
                  (str "host.example/x/b", str "dms3gx/dms3fs/QmB/b")]
            loaded := [str "QmA", str "QmC", str "QmB"] } ∧
    buildRewriteMapping diamondEnv diamondRoot [] true =
      .ok { seen := [str "QmA", str "QmC", str "QmB"]
            m := [(str "dms3gx/dms3fs/QmA/a", str "host.example/x/a"),
                  (str "dms3gx/dms3fs/QmB/b", str "host.example/x/b")]
            loaded := [str "QmA", str "QmC", str "QmB"] } ∧
    ∃ si su, buildRewriteMapping diamondEnv diamondRoot [] false = .ok si ∧
      buildRewriteMapping diamondEnv diamondRoot [] true = .ok su ∧
      ∀ a b, si.m.get a = some b ↔ su.m.get b = some a :=
  ⟨by decide, by decide,
    undo_mapping_is_swapped_install diamondEnv diamondRoot diamond_resolves
      (fun h1 h2 p1 p2 r1 r2 l1 l2 n1 n2 e =>
        diamond_distinct h1 (diamond_reachable r1) h2 (diamond_reachable r2) p1 p2 l1 l2 n1 n2
          (Or.inl e))
      (fun h1 h2 p1 p2 r1 r2 l1 l2 n1 n2 e =>
        diamond_distinct h1 (diamond_reachable r1) h2 (diamond_reachable r2) p1 p2 l1 l2 n1 n2
          (Or.inr e))⟩

/-- C14. For every list of entries visited by the walk in which each symbolic link
that lies two levels deep has a resolved target, `listLinkedPackages` returns
without error exactly the links of the specification: one pair (hash, resolved
target) for each entry that lies exactly two levels deep and is a symbolic
link, in the order of the walk, and nothing else (no other list of links fits
the walk). -/
theorem listLinkedPackages_links (walk : List WalkEntry)
    (hres : ∀ e ∈ walk, e.isSymlink = true → (∃ hash name, TwoLevels e.relpath hash name) →
      e.target ≠ none) :
    Links walk (listLinkedPackages true walk).1 ∧
    (∀ ls, Links walk ls → ls = (listLinkedPackages true walk).1) ∧
    (listLinkedPackages true walk).2 = false := by
  obtain ⟨ls, hl, hw⟩ := walkLinks_links walk hres []
  have hres' : Links walk (listLinkedPackages true walk).1 := by
    show Links walk (walkLinks walk [])
    rw [hw]
    exact hl
  exact ⟨hres', fun ls' h => Links_unique h hres', rfl⟩

/-- C14 on a tree with two symlinked slots and one ordinary slot: exactly the two
pairs are returned. -/
theorem listLinkedPackages_links_witness :
    listLinkedPackages true linkTree =
      ([[str "QmA", str "/w/src/host.example/x/a"], [str "QmC", str "/w/src/host.example/x/c"]],
        false) ∧
    Links linkTree (listLinkedPackages true linkTree).1 ∧
    (∀ ls, Links linkTree ls → ls = (listLinkedPackages true linkTree).1) ∧
    (listLinkedPackages true linkTree).2 = false :=
  ⟨by decide, listLinkedPackages_links linkTree (by
    have h : ∀ e ∈ linkTree, e.isSymlink = true → e.target ≠ none := by decide
    exact fun e he hs _ => h e he hs)⟩

/-- C15 as stated fails: both versions are dotted decimal and `have` is strictly
lower than `req` (the first components are equal, then 0 < 1), yet the first
component does not fit an `int`, and `versionComp` returns `false` together with
the error of `strconv.Atoi` instead of `true`. -/
theorem versionComp_range_error :
    IsDecimal (str "99999999999999999999") ∧ IsDecimal (str "0") ∧ IsDecimal (str "1") ∧
    versionLess ([str "99999999999999999999", str "0"].map decimalValue)
      ([str "99999999999999999999", str "1"].map decimalValue) = true ∧
    versionComp (str "99999999999999999999.0") (str "99999999999999999999.1")
      = .error (str "99999999999999999999") ∧
    versionComp (str "99999999999999999999.0") (str "99999999999999999999.1") ≠ .value true := by
  refine ⟨by unfold IsDecimal; decide, by unfold IsDecimal; decide, by unfold IsDecimal; decide,
    by decide, by decide, by decide⟩

/-- C15, amended. For dotted decimal versions `have` and `req` whose components fit
Go's `int`, `have` possibly carrying an `rc…` or `beta…` suffix on its last
component, `versionComp` returns without error, and returns `true` exactly when
`have`, the suffix dropped, is strictly lower than `req` in component-wise
numeric order over the components that both have. -/
theorem versionComp_decimal (hc rc : List Str) (suffix : Str) (hne : hc ≠ []) (rne : rc ≠ [])
    (hdec : ∀ c ∈ hc, IsDecimal c ∧ decimalValue c < 2 ^ (intSize - 1))
    (rdec : ∀ c ∈ rc, IsDecimal c ∧ decimalValue c < 2 ^ (intSize - 1))
    (hsuf : PreRelease suffix) :
    versionComp (Join hc ['.'] ++ suffix) (Join rc ['.'])
      = .value (versionLess (hc.map decimalValue) (rc.map decimalValue)) := by
  have hdot : ∀ c, IsDecimal c → '.' ∉ c := fun c h => digit_not_mem h.2 '.' (by decide)
  have e1 : Split (Join hc ['.'] ++ suffix) ['.'] = setLast (fun a => a ++ suffix) hc := by
    rw [Join_append_suffix hc ['.'] suffix hne]
    refine Split_Join '.' _ (setLast_ne_nil _ _ hne) ?_
    intro q hq
    obtain ⟨a, ha, hqa⟩ := setLast_mem hq
    rcases hqa with rfl | rfl
    · exact hdot _ (hdec _ ha).1
    · intro h
      rcases List.mem_append.1 h with h | h
      · exact hdot a (hdec a ha).1 h
      · exact PreRelease_no_dot hsuf h
  have e2 : Split (Join rc ['.']) ['.'] = rc :=
    Split_Join '.' rc rne (fun p hp => hdot p (rdec p hp).1)
  have e3 : setLast dropPreRelease (setLast (fun a => a ++ suffix) hc) = hc :=
    setLast_setLast_id _ _ hc (fun a ha => dropPreRelease_append a suffix (hdec a ha).1.2 hsuf)
  unfold versionComp
  simp only [e1, e2, e3]
  exact compareParts_decimal hc hdec rc rdec

/-- C15, amended, on the examples of the claim: 1.9 is below 1.10; 1.10rc1 is
treated as 1.10 and meets the minimum 1.10; equal versions meet the minimum. -/
theorem versionComp_decimal_witness :
    versionComp (str "1.9") (str "1.10") = .value true ∧
    versionComp (str "1.10rc1") (str "1.10") = .value false ∧
    versionComp (str "1.10") (str "1.10") = .value false ∧
    versionComp (str "1.9beta2") (str "1.10") = .value true ∧
    versionComp (Join [str "1", str "10"] ['.'] ++ ("rc".toList ++ str "1"))
        (Join [str "1", str "10"] ['.'])
      = .value (versionLess ([str "1", str "10"].map decimalValue)
          ([str "1", str "10"].map decimalValue)) :=
  ⟨by decide, by decide, by decide, by decide,
    versionComp_decimal [str "1", str "10"] [str "1", str "10"] ("rc".toList ++ str "1")
      (by decide) (by decide) (by unfold IsDecimal; decide) (by unfold IsDecimal; decide)
      (PreRelease.rc (str "1") (by decide))⟩

/-- C16 (defect in the code). The mapping holds the one key `host.example/x/y/z`.
The lookup of `host.example/x/y` passes through and is memoized as an entry of the
same map.  When the loop of the next lookup visits that memoized entry first,
`host.example/x/y/z/sub` is returned unchanged, although on the initial mapping the
matching policy yields `dms3gx/dms3fs/QmZ/z/sub` and nothing else. -/
theorem rwm_memoized_entry_shadows_key :
    rwm [(str "host.example/x/y/z", str "dms3gx/dms3fs/QmZ/z")] (str "host.example/x/y")
      = (str "host.example/x/y",
         [(str "host.example/x/y/z", str "dms3gx/dms3fs/QmZ/z"),
          (str "host.example/x/y", str "host.example/x/y")]) ∧
    List.Perm
      [(str "host.example/x/y", str "host.example/x/y"),
       (str "host.example/x/y/z", str "dms3gx/dms3fs/QmZ/z")]
      [(str "host.example/x/y/z", str "dms3gx/dms3fs/QmZ/z"),
       (str "host.example/x/y", str "host.example/x/y")] ∧
    (rwm [(str "host.example/x/y", str "host.example/x/y"),
          (str "host.example/x/y/z", str "dms3gx/dms3fs/QmZ/z")]
        (str "host.example/x/y/z/sub")).1 = str "host.example/x/y/z/sub" ∧
    PolicyResult [(str "host.example/x/y/z", str "dms3gx/dms3fs/QmZ/z")]
      (str "host.example/x/y/z/sub") (str "dms3gx/dms3fs/QmZ/z/sub") ∧
    ¬ PolicyResult [(str "host.example/x/y/z", str "dms3gx/dms3fs/QmZ/z")]
      (str "host.example/x/y/z/sub") (str "host.example/x/y/z/sub") := by
  refine ⟨by decide, List.Perm.swap _ _ _, by decide, ?_, ?_⟩
  · exact @PolicyResult.nested _ _ (str "host.example/x/y/z") (str "dms3gx/dms3fs/QmZ/z")
      (str "sub") (by decide) (by decide) (by decide)
  · intro h
    have := @PolicyResult_single (str "host.example/x/y/z") (str "dms3gx/dms3fs/QmZ/z")
      (str "sub") (str "host.example/x/y/z/sub") h
    exact absurd this (by decide)

/-- C17 (defect in the code). The function handed to the rewriter by `fixImports` is
not total: on an import that starts with `dms3gx/dms3fs/` and has only three
segments, such as `dms3gx/dms3fs/QmX`, the slice `parts[:4]` is out of range and
the call panics, whatever the state of `fixmap` and of the file system.  An import
that does not start with `dms3gx/dms3fs/` is returned unchanged. -/
theorem rwf_short_import_panics :
    Split (str "dms3gx/dms3fs/QmX") ['/'] = [str "dms3gx", str "dms3fs", str "QmX"] ∧
    (∀ gopathSrc fixmap, rwf gopathSrc fixmap (str "dms3gx/dms3fs/QmX") = .sliceBoundsPanic) ∧
    (∀ gopathSrc fixmap hash, '/' ∉ hash →
      rwf gopathSrc fixmap (vendorImportRoot ++ hash) = .sliceBoundsPanic) ∧
    (∀ gopathSrc fixmap imp, HasPrefix imp vendorImportRoot = false →
      rwf gopathSrc fixmap imp = .ret imp fixmap) := by
  have hgen : ∀ gopathSrc fixmap hash, '/' ∉ hash →
      rwf gopathSrc fixmap (vendorImportRoot ++ hash) = .sliceBoundsPanic := by
    intro gopathSrc fixmap hash hh
    have hs : Split (vendorImportRoot ++ hash) ['/'] = [str "dms3gx", str "dms3fs", hash] := by
      have : vendorImportRoot ++ hash = Join [str "dms3gx", str "dms3fs", hash] ['/'] := by
        simp [Join, vendorImportRoot, str]
      rw [this]
      refine Split_Join '/' _ (by simp) ?_
      intro p hp
      simp only [List.mem_cons, List.mem_singleton, List.not_mem_nil, or_false] at hp
      rcases hp with rfl | rfl | rfl
      · decide
      · decide
      · exact hh
    simp [rwf, HasPrefix_append, hs]
  refine ⟨by decide, ?_, hgen, ?_⟩
  · intro gopathSrc fixmap
    exact hgen gopathSrc fixmap (str "QmX") (by decide)
  · intro gopathSrc fixmap imp h
    simp [rwf, h]

end Dms3gxGo
